import Mathlib

/-!
# Verification of the reaction-network core against its specification

Shallow embedding of the `reaction-network` repository (graph build,
cost model, Yen's k-shortest-paths variant, pathway aggregation), with
theorems settling the frozen claims about it.

Sources embedded:
* `rxn_network/core.py` — `ReactionNetwork.generate_all_combos`,
  `determine_rxn_weight`, `generate_rxn_network` (weight passes and
  reaction-edge generation), `set_cost_function`, `set_starters`,
  `set_target`.
* `src/rxn_network/network/network.py` — `get_rxn_nodes_and_edges`,
  `get_loopback_edges`, `ReactionNetwork.set_precursors`, `set_target`,
  `yens_ksp`.
* `src/rxn_network/pathways/base.py` — `Pathway` aggregate properties.

External collaborators (pymatgen's `ComputedReaction` balancer, the
rustworkx Dijkstra routine, the numeric `softplus`/`arrhenius`
routines) are modelled as abstract parameters or as their documented
input/output behaviour; machine floats are modelled as rationals.
-/

namespace RxnNetwork

/-! ## Combination generator (`ReactionNetwork.generate_all_combos`)

Python source:
```
all_combos = [set(combo) for combo in chain.from_iterable(
    [combinations(entries, num_combos) for num_combos in range(1, max_num_combos + 1)])]
```
`itertools.combinations(entries, k)` enumerates the length-`k`
subsequences of `entries`; this is `List.sublistsLen k entries`.
`range(1, M+1)` gives sizes `1 .. M`, and each tuple is converted to a
Python `set` (here: `List.toFinset`).
-/

def generate_all_combos {α : Type} [DecidableEq α] (entries : List α)
    (max_num_combos : ℕ) : List (Finset α) :=
  ((List.range max_num_combos).flatMap fun k => entries.sublistsLen (k + 1)).map
    List.toFinset

/-- Two sublists of a duplicate-free list having the same element set are
the same list (the common order is the one induced by the ambient list). -/
lemma sublist_eq_of_toFinset_eq {α : Type} [DecidableEq α] :
    ∀ {l l₁ l₂ : List α}, l.Nodup → List.Sublist l₁ l → List.Sublist l₂ l →
      l₁.toFinset = l₂.toFinset → l₁ = l₂ := by
  intro l
  induction l with
  | nil =>
    intro l₁ l₂ _ h₁ h₂ _
    rw [List.sublist_nil.mp h₁, List.sublist_nil.mp h₂]
  | cons a t ih =>
    intro l₁ l₂ hn h₁ h₂ hset
    have hat : a ∉ t := (List.nodup_cons.mp hn).1
    have hnt : t.Nodup := (List.nodup_cons.mp hn).2
    cases h₁ with
    | cons _ h₁' =>
      cases h₂ with
      | cons _ h₂' => exact ih hnt h₁' h₂' hset
      | cons₂ _ h₂' =>
        exfalso
        have ha2 : a ∈ l₁.toFinset := by
          rw [hset]; simp
        exact hat (h₁'.subset (List.mem_toFinset.mp ha2))
    | cons₂ _ h₁' =>
      cases h₂ with
      | cons _ h₂' =>
        exfalso
        have ha1 : a ∈ l₂.toFinset := by
          rw [← hset]; simp
        exact hat (h₂'.subset (List.mem_toFinset.mp ha1))
      | cons₂ _ h₂' =>
        rename_i l₁' l₂'
        have ha1 : a ∉ l₁' := fun h => hat (h₁'.subset h)
        have ha2 : a ∉ l₂' := fun h => hat (h₂'.subset h)
        have htail : l₁'.toFinset = l₂'.toFinset := by
          ext x
          constructor
          · intro hx
            have hx' : x ∈ (a :: l₂').toFinset := by
              rw [← hset]; simp [List.mem_toFinset.mp hx]
            rcases List.mem_cons.mp (List.mem_toFinset.mp hx') with h | h
            · exact absurd (h ▸ hx) (by simpa using ha1)
            · exact List.mem_toFinset.mpr h
          · intro hx
            have hx' : x ∈ (a :: l₁').toFinset := by
              rw [hset]; simp [List.mem_toFinset.mp hx]
            rcases List.mem_cons.mp (List.mem_toFinset.mp hx') with h | h
            · exact absurd (h ▸ hx) (by simpa using ha2)
            · exact List.mem_toFinset.mpr h
        rw [ih hnt h₁' h₂' htail]

/-- Characterisation of membership in the flattened combination list
before the `set(...)` conversion. -/
lemma mem_combos_flat {α : Type} (entries : List α) (M : ℕ) (l' : List α) :
    l' ∈ ((List.range M).flatMap fun k => entries.sublistsLen (k + 1)) ↔
      List.Sublist l' entries ∧ 1 ≤ l'.length ∧ l'.length ≤ M := by
  simp only [List.mem_flatMap, List.mem_range, List.mem_sublistsLen]
  constructor
  · rintro ⟨k, hk, hsub, hlen⟩
    exact ⟨hsub, by omega, by omega⟩
  · rintro ⟨hsub, h1, h2⟩
    exact ⟨l'.length - 1, by omega, hsub, by omega⟩

/-- C7 carrier: every generated combination, viewed as a finset, has
size between 1 and `max_num_combos` when the entry list has no
duplicates. -/
lemma generate_all_combos_card {α : Type} [DecidableEq α]
    {entries : List α} {M : ℕ} (hn : entries.Nodup) :
    ∀ c ∈ generate_all_combos entries M, 1 ≤ c.card ∧ c.card ≤ M := by
  intro c hc
  rcases List.mem_map.mp hc with ⟨l', hl', rfl⟩
  rcases (mem_combos_flat entries M l').mp hl' with ⟨hsub, h1, h2⟩
  have hnd : l'.Nodup := hn.sublist hsub
  rw [List.toFinset_card_of_nodup hnd]
  exact ⟨h1, h2⟩

/-- C7 count: the generated list has exactly
`C(N,1) + C(N,2) + ... + C(N,M)` elements. -/
lemma generate_all_combos_length {α : Type} [DecidableEq α]
    (entries : List α) (M : ℕ) :
    (generate_all_combos entries M).length =
      ∑ k ∈ Finset.range M, entries.length.choose (k + 1) := by
  unfold generate_all_combos
  rw [List.length_map, List.length_flatMap]
  induction M with
  | zero => simp
  | succ m ih =>
    rw [List.range_succ]
    simp only [List.map_append, List.sum_append, Finset.sum_range_succ, ih]
    simp [List.length_sublistsLen]

/-- C7 distinctness: for a duplicate-free entry list, no combination is
generated twice. -/
lemma generate_all_combos_nodup {α : Type} [DecidableEq α]
    {entries : List α} (M : ℕ) (hn : entries.Nodup) :
    (generate_all_combos entries M).Nodup := by
  unfold generate_all_combos
  apply List.Nodup.map_on
  · intro x hx y hy hxy
    rcases (mem_combos_flat entries M x).mp hx with ⟨hsx, _, _⟩
    rcases (mem_combos_flat entries M y).mp hy with ⟨hsy, _, _⟩
    exact sublist_eq_of_toFinset_eq hn hsx hsy hxy
  · rw [List.nodup_flatMap]
    constructor
    · intro k _
      exact List.nodup_sublistsLen (k + 1) hn
    · refine List.Pairwise.imp ?_ (List.nodup_range M)
      intro i j hij
      intro l' hi hj
      have h1 := (List.mem_sublistsLen.mp hi).2
      have h2 := (List.mem_sublistsLen.mp hj).2
      omega

/-! ## Cost model (`ReactionNetwork.determine_rxn_weight` and the weight passes)

`self._most_negative_rxn` is initialised to `float("inf")` and lowered as
edges are processed; it is modelled as `Option ℚ` with `none` standing for
`+∞`.  `_softplus` and `_arrhenius` call `np.log`/`np.exp` on machine
floats; these numeric routines are external collaborators and are modelled
as abstract parameters `sp arr : ℚ → ℚ` (the claims under verification
depend only on the control flow around them, not on their values). -/

/-- `weight < self._most_negative_rxn`, where `none` stands for `float("inf")`. -/
def ltMin (energy : ℚ) : Option ℚ → Bool
  | none => true
  | some m => energy < m

/-- `ReactionNetwork.determine_rxn_weight(energy, cost_function)`
(core.py lines 311–343).  The branches appear in source order: softplus,
bipartite, rectified, arrhenius, enthalpies_positive, unknown-name
fallthrough (`weight = 0`).  Returns the weight together with the updated
`_most_negative_rxn` instance field. -/
def determine_rxn_weight (sp arr : ℚ → ℚ) (energy : ℚ) (cost_function : String)
    (mn : Option ℚ) : ℚ × Option ℚ :=
  if cost_function = "softplus" then (sp energy, mn)
  else if cost_function = "bipartite" then
    ((if 0 ≤ energy then 2 * energy + 1 else energy),
      if ltMin energy mn then some energy else mn)
  else if cost_function = "rectified" then
    ((if energy < 0 then 0 else energy), mn)
  else if cost_function = "arrhenius" then (arr energy, mn)
  else if cost_function = "enthalpies_positive" then
    (energy, if ltMin energy mn then some energy else mn)
  else (0, mn)

/-- A graph edge as relevant to the weight passes: structural edges
(precursor links, loopbacks, target links) carry `rxnEnergy = none` (their
`rxn` attribute is `None`) and weight 0; reaction edges carry the per-atom
reaction energy `dg_per_atom`. -/
structure WEdge where
  rxnEnergy : Option ℚ
  weight : ℚ
deriving DecidableEq

/-- The per-edge weight pass of `generate_rxn_network` (core.py line 154),
threading `_most_negative_rxn` through the edges in iteration order;
structural edges are added with `weight=0` and no `rxn` attribute. -/
def buildPass (sp arr : ℚ → ℚ) (cf : String) :
    List (Option ℚ) → Option ℚ → List WEdge × Option ℚ
  | [], mn => ([], mn)
  | some e :: rest, mn =>
    let p := determine_rxn_weight sp arr e cf mn
    let q := buildPass sp arr cf rest p.2
    (⟨some e, p.1⟩ :: q.1, q.2)
  | none :: rest, mn =>
    let q := buildPass sp arr cf rest mn
    (⟨none, 0⟩ :: q.1, q.2)

/-- The global second pass at the end of `generate_rxn_network` (core.py
lines 159–171): `enthalpies_positive` shifts every reaction-bearing edge
down by `_most_negative_rxn`; `bipartite` remaps every negative
reaction-edge weight `w` to `1 - w / _most_negative_rxn`.  Whenever the
pass touches an edge at least one reaction edge was processed, so the
field is finite; `getD 0` is the total-function default for the
unreachable infinite case. -/
def postShift (cf : String) (mn : Option ℚ) (es : List WEdge) : List WEdge :=
  if cf = "enthalpies_positive" then
    es.map fun e =>
      match e.rxnEnergy with
      | some en => ⟨some en, e.weight - mn.getD 0⟩
      | none => e
  else if cf = "bipartite" then
    es.map fun e =>
      match e.rxnEnergy with
      | some en => if e.weight < 0 then ⟨some en, 1 - e.weight / mn.getD 0⟩ else e
      | none => e
  else es

/-- The edge weights right after `generate_rxn_network` completes:
per-edge pass with `_most_negative_rxn` reset to `+∞` (core.py line 88),
followed by the global shift. -/
def generateWeights (sp arr : ℚ → ℚ) (cf : String) (energies : List (Option ℚ)) :
    List WEdge :=
  postShift cf (buildPass sp arr cf energies none).2
    (buildPass sp arr cf energies none).1

/-- The `_most_negative_rxn` field left behind by `generate_rxn_network`. -/
def buildMin (sp arr : ℚ → ℚ) (cf : String) (energies : List (Option ℚ)) :
    Option ℚ :=
  (buildPass sp arr cf energies none).2

/-- `ReactionNetwork.set_cost_function` (core.py lines 345–361): recomputes
each reaction edge's weight with `determine_rxn_weight` — which keeps
threading the instance field `_most_negative_rxn`, not reset here — leaves
structural edges untouched, and applies no global second pass. -/
def set_cost_function (sp arr : ℚ → ℚ) (cf : String) :
    List WEdge → Option ℚ → List WEdge × Option ℚ
  | [], mn => ([], mn)
  | e :: rest, mn =>
    match e.rxnEnergy with
    | some en =>
      let p := determine_rxn_weight sp arr en cf mn
      let q := set_cost_function sp arr cf rest p.2
      (⟨some en, p.1⟩ :: q.1, q.2)
    | none =>
      let q := set_cost_function sp arr cf rest mn
      (e :: q.1, q.2)

/-- For a cost function that is pure per-edge, `buildPass` is a plain map
and leaves `_most_negative_rxn` untouched. -/
lemma buildPass_pure {sp arr : ℚ → ℚ} {cf : String} {f : ℚ → ℚ}
    (hp : ∀ e mn, determine_rxn_weight sp arr e cf mn = (f e, mn)) :
    ∀ (energies : List (Option ℚ)) (mn : Option ℚ),
      buildPass sp arr cf energies mn =
        (energies.map fun o =>
          match o with
          | some e => ⟨some e, f e⟩
          | none => ⟨none, 0⟩, mn) := by
  intro energies
  induction energies with
  | nil => intro mn; rfl
  | cons o rest ih =>
    intro mn
    cases o with
    | some e => simp [buildPass, hp, ih]
    | none => simp [buildPass, ih]

/-- For a cost function that is pure per-edge, `set_cost_function`
recomputes each reaction edge's weight with `f`. -/
lemma set_cost_function_pure {sp arr : ℚ → ℚ} {cf : String} {f : ℚ → ℚ}
    (hp : ∀ e mn, determine_rxn_weight sp arr e cf mn = (f e, mn)) :
    ∀ (es : List WEdge) (mn : Option ℚ),
      set_cost_function sp arr cf es mn =
        (es.map fun e =>
          match e.rxnEnergy with
          | some en => ⟨some en, f en⟩
          | none => e, mn) := by
  intro es
  induction es with
  | nil => intro mn; rfl
  | cons e rest ih =>
    intro mn
    cases he : e.rxnEnergy with
    | some en => simp [set_cost_function, he, hp, ih]
    | none => simp [set_cost_function, he, ih]

/-- Under `bipartite` / `enthalpies_positive`, `_most_negative_rxn` only
ever decreases. -/
lemma buildPass_min_mono (sp arr : ℚ → ℚ) {cf : String}
    (hcf : cf = "bipartite" ∨ cf = "enthalpies_positive") :
    ∀ (energies : List (Option ℚ)) (m0 : ℚ),
      ∃ m, (buildPass sp arr cf energies (some m0)).2 = some m ∧ m ≤ m0 := by
  intro energies
  induction energies with
  | nil => intro m0; exact ⟨m0, rfl, le_refl m0⟩
  | cons o rest ih =>
    intro m0
    cases o with
    | none => simpa [buildPass] using ih m0
    | some e =>
      have hmn' : (determine_rxn_weight sp arr e cf (some m0)).2 =
          if e < m0 then some e else some m0 := by
        rcases hcf with h | h <;> subst h <;>
          simp [determine_rxn_weight, ltMin]
      by_cases hlt : e < m0
      · rcases ih e with ⟨m, hm, hle⟩
        exact ⟨m, by simp [buildPass, hmn', hlt, hm], le_trans hle hlt.le⟩
      · rcases ih m0 with ⟨m, hm, hle⟩
        exact ⟨m, by simp [buildPass, hmn', hlt, hm], hle⟩

/-- Under `bipartite` / `enthalpies_positive`, the final
`_most_negative_rxn` is a lower bound for every reaction energy in the
edge list. -/
lemma buildPass_min_le (sp arr : ℚ → ℚ) {cf : String}
    (hcf : cf = "bipartite" ∨ cf = "enthalpies_positive") :
    ∀ (energies : List (Option ℚ)) (mn : Option ℚ) (en : ℚ),
      some en ∈ energies →
      ∃ m, (buildPass sp arr cf energies mn).2 = some m ∧ m ≤ en := by
  intro energies
  induction energies with
  | nil => intro mn en h; simp at h
  | cons o rest ih =>
    intro mn en hen
    cases o with
    | none =>
      rcases List.mem_cons.mp hen with h | h
      · exact absurd h (by simp)
      · simpa [buildPass] using ih mn en h
    | some e =>
      have hmn' : (determine_rxn_weight sp arr e cf mn).2 =
          if ltMin e mn then some e else mn := by
        rcases hcf with h | h <;> subst h <;> simp [determine_rxn_weight]
      rcases List.mem_cons.mp hen with h | h
      · have he : en = e := by simpa using h
        subst he
        by_cases hl : ltMin en mn = true
        · rcases buildPass_min_mono sp arr hcf rest en with ⟨m, hm, hle⟩
          exact ⟨m, by simp [buildPass, hmn', hl, hm], hle⟩
        · cases mn with
          | none => simp [ltMin] at hl
          | some m0 =>
            have hge : m0 ≤ en := by
              by_contra hc
              exact hl (by simp [ltMin]; linarith)
            rcases buildPass_min_mono sp arr hcf rest m0 with ⟨m, hm, hle⟩
            exact ⟨m, by simp [buildPass, hmn', hl, hm], le_trans hle hge⟩
      · by_cases hl : ltMin e mn = true
        · rcases ih (some e) en h with ⟨m, hm, hle⟩
          exact ⟨m, by simp [buildPass, hmn', hl, hm], hle⟩
        · rcases ih mn en h with ⟨m, hm, hle⟩
          exact ⟨m, by simp [buildPass, hmn', hl, hm], hle⟩

/-- Shape of the edges produced by the per-edge pass, for any cost
function whose weight does not depend on `_most_negative_rxn` (true of
all branches of `determine_rxn_weight`). -/
lemma buildPass_weight {sp arr : ℚ → ℚ} {cf : String} {g : ℚ → ℚ}
    (hg : ∀ e mn, (determine_rxn_weight sp arr e cf mn).1 = g e) :
    ∀ (energies : List (Option ℚ)) (mn : Option ℚ) (e : WEdge),
      e ∈ (buildPass sp arr cf energies mn).1 →
      (e.rxnEnergy = none ∧ e.weight = 0) ∨
        ∃ en, e.rxnEnergy = some en ∧ e.weight = g en ∧ some en ∈ energies := by
  intro energies
  induction energies with
  | nil => intro mn e h; simp [buildPass] at h
  | cons o rest ih =>
    intro mn e he
    cases o with
    | none =>
      rcases List.mem_cons.mp (by simpa [buildPass] using he) with h | h
      · exact Or.inl (by simp [h])
      · rcases ih mn e h with h' | ⟨en, h1, h2, h3⟩
        · exact Or.inl h'
        · exact Or.inr ⟨en, h1, h2, by simp [h3]⟩
    | some en0 =>
      rcases List.mem_cons.mp (by simpa [buildPass] using he) with h | h
      · exact Or.inr ⟨en0, by simp [h], by simp [h, hg], by simp⟩
      · rcases ih _ e h with h' | ⟨en, h1, h2, h3⟩
        · exact Or.inl h'
        · exact Or.inr ⟨en, h1, h2, by simp [h3]⟩

/-- Helper: a per-edge-pure cost function together with a trivial global
pass is idempotent under `set_cost_function`. -/
lemma set_cost_function_idem_of_pure {sp arr : ℚ → ℚ} {cf : String} {f : ℚ → ℚ}
    (hp : ∀ e mn, determine_rxn_weight sp arr e cf mn = (f e, mn))
    (hpost : ∀ mn es, postShift cf mn es = es)
    (energies : List (Option ℚ)) :
    (set_cost_function sp arr cf (generateWeights sp arr cf energies)
        (buildMin sp arr cf energies)).1 =
      generateWeights sp arr cf energies := by
  rw [generateWeights, hpost, buildPass_pure hp, set_cost_function_pure hp]
  simp only [List.map_map]
  apply List.map_congr_left
  intro o _
  cases o <;> rfl

/-- C3 (counterexample): build with `enthalpies_positive` on a single
reaction edge of per-atom energy −1.  The global pass shifts the weight to
0, but `set_cost_function("enthalpies_positive")` — which performs no
global pass — recomputes it to −1, so re-applying the same named cost
function changes the edge weights. -/
theorem C3_counterexample :
    (set_cost_function id id "enthalpies_positive"
        (generateWeights id id "enthalpies_positive" [some (-1)])
        (buildMin id id "enthalpies_positive" [some (-1)])).1 ≠
      generateWeights id id "enthalpies_positive" [some (-1)] := by
  simp only [set_cost_function, generateWeights, buildMin, buildPass, postShift,
    determine_rxn_weight, ltMin, String.reduceEq, reduceIte, List.map]
  norm_num

/-- C3 (amended): after `generate_rxn_network` with one of the pure
per-edge strategies — softplus, rectified, arrhenius — re-applying the
same named cost function via `set_cost_function` leaves every edge weight
identical to its value after the build.  (For `bipartite` and
`enthalpies_positive` this fails: `set_cost_function` omits the global
second pass, see `C3_counterexample`.) -/
theorem C3_cost_idempotence_amended (sp arr : ℚ → ℚ) (cf : String)
    (hcf : cf = "softplus" ∨ cf = "rectified" ∨ cf = "arrhenius")
    (energies : List (Option ℚ)) :
    (set_cost_function sp arr cf (generateWeights sp arr cf energies)
        (buildMin sp arr cf energies)).1 =
      generateWeights sp arr cf energies := by
  rcases hcf with h | h | h <;> subst h
  · exact set_cost_function_idem_of_pure
      (f := sp) (by intro e mn; simp [determine_rxn_weight])
      (by intro mn es; simp [postShift]) energies
  · exact set_cost_function_idem_of_pure
      (f := fun e => if e < 0 then 0 else e)
      (by intro e mn; simp [determine_rxn_weight])
      (by intro mn es; simp [postShift]) energies
  · exact set_cost_function_idem_of_pure
      (f := arr) (by intro e mn; simp [determine_rxn_weight])
      (by intro mn es; simp [postShift]) energies

/-- Witness for `C3_cost_idempotence_amended` at `cf = "rectified"` on a
concrete edge list. -/
theorem C3_cost_idempotence_amended_witness :
    (("rectified" : String) = "softplus" ∨ ("rectified" : String) = "rectified" ∨
        ("rectified" : String) = "arrhenius") ∧
      (set_cost_function id id "rectified"
          (generateWeights id id "rectified" [some (-2), none, some 3])
          (buildMin id id "rectified" [some (-2), none, some 3])).1 =
        generateWeights id id "rectified" [some (-2), none, some 3] :=
  ⟨Or.inr (Or.inl rfl),
    C3_cost_idempotence_amended id id "rectified" (Or.inr (Or.inl rfl))
      [some (-2), none, some 3]⟩

/-- Membership shape of the `enthalpies_positive` global pass. -/
lemma mem_postShift_epos {mn : Option ℚ} {es : List WEdge} {e : WEdge}
    (he : e ∈ postShift "enthalpies_positive" mn es) :
    ∃ e0 ∈ es, (e0.rxnEnergy = none ∧ e = e0) ∨
      ∃ en, e0.rxnEnergy = some en ∧ e = ⟨some en, e0.weight - mn.getD 0⟩ := by
  simp only [postShift, String.reduceEq, reduceIte] at he
  rcases List.mem_map.mp he with ⟨e0, he0, rfl⟩
  refine ⟨e0, he0, ?_⟩
  cases h : e0.rxnEnergy with
  | none => exact Or.inl ⟨rfl, by simp [h]⟩
  | some en => exact Or.inr ⟨en, rfl, by simp [h]⟩

/-- Membership shape of the `bipartite` global pass. -/
lemma mem_postShift_bip {mn : Option ℚ} {es : List WEdge} {e : WEdge}
    (he : e ∈ postShift "bipartite" mn es) :
    ∃ e0 ∈ es, (e0.rxnEnergy = none ∧ e = e0) ∨
      ∃ en, e0.rxnEnergy = some en ∧
        ((e0.weight < 0 ∧ e = ⟨some en, 1 - e0.weight / mn.getD 0⟩) ∨
          (0 ≤ e0.weight ∧ e = e0)) := by
  simp only [postShift, String.reduceEq, reduceIte] at he
  rcases List.mem_map.mp he with ⟨e0, he0, rfl⟩
  refine ⟨e0, he0, ?_⟩
  cases h : e0.rxnEnergy with
  | none => exact Or.inl ⟨rfl, by simp [h]⟩
  | some en =>
    refine Or.inr ⟨en, rfl, ?_⟩
    by_cases hw : e0.weight < 0
    · exact Or.inl ⟨hw, by simp [h, hw]⟩
    · exact Or.inr ⟨le_of_not_lt hw, by simp [h, hw]⟩

/-- C4: after `generate_rxn_network` completes with cost function
`enthalpies_positive` or `bipartite`, every edge that carries a Reaction
has weight ≥ 0: the global second pass over the running minimum makes all
reaction-edge weights non-negative. -/
theorem C4_reaction_edge_weights_nonneg (sp arr : ℚ → ℚ) (cf : String)
    (hcf : cf = "enthalpies_positive" ∨ cf = "bipartite")
    (energies : List (Option ℚ)) :
    ∀ e ∈ generateWeights sp arr cf energies, ∀ en, e.rxnEnergy = some en →
      0 ≤ e.weight := by
  rcases hcf with h | h <;> subst h <;> intro e he en hen
  · rw [generateWeights] at he
    rcases mem_postShift_epos he with ⟨e0, he0, hcase⟩
    have hg : ∀ (x : ℚ) (mn : Option ℚ),
        (determine_rxn_weight sp arr x "enthalpies_positive" mn).1 = x := by
      intro x mn; simp [determine_rxn_weight]
    rcases hcase with ⟨h1, rfl⟩ | ⟨en0, h1, rfl⟩
    · rw [h1] at hen; cases hen
    · rcases buildPass_weight hg energies none e0 he0 with ⟨hn, _⟩ |
        ⟨en1, hsome, hw, hmem⟩
      · rw [hn] at h1; cases h1
      · have he1 : en1 = en0 := by
          rw [h1] at hsome; exact (Option.some.inj hsome).symm
        subst he1
        rcases buildPass_min_le sp arr (Or.inr rfl) energies none en1 hmem with
          ⟨m, hm, hle⟩
        simp only [hm, Option.getD_some, hw]
        linarith
  · rw [generateWeights] at he
    rcases mem_postShift_bip he with ⟨e0, he0, hcase⟩
    have hg : ∀ (x : ℚ) (mn : Option ℚ),
        (determine_rxn_weight sp arr x "bipartite" mn).1 =
          if 0 ≤ x then 2 * x + 1 else x := by
      intro x mn; simp [determine_rxn_weight]
    rcases hcase with ⟨h1, rfl⟩ | ⟨en0, h1, hsub⟩
    · rw [h1] at hen; cases hen
    · rcases buildPass_weight hg energies none e0 he0 with ⟨hn, _⟩ |
        ⟨en1, hsome, hw, hmem⟩
      · rw [hn] at h1; cases h1
      · have he1 : en1 = en0 := by
          rw [h1] at hsome; exact (Option.some.inj hsome).symm
        subst he1
        rcases hsub with ⟨hneg, rfl⟩ | ⟨hpos, rfl⟩
        · -- shifted case: the raw energy was negative
          have hen1 : ¬ 0 ≤ en1 := by
            intro hc
            rw [hw, if_pos hc] at hneg
            linarith
          rw [hw, if_neg hen1] at hneg ⊢
          rcases buildPass_min_le sp arr (Or.inl rfl) energies none en1 hmem with
            ⟨m, hm, hle⟩
          simp only [hm, Option.getD_some]
          have hmneg : m < 0 := lt_of_le_of_lt hle hneg
          have hdiv : en1 / m ≤ 1 := by
            rw [div_le_iff_of_neg hmneg]
            linarith
          linarith
        · exact hpos

/-- Witness for `C4_reaction_edge_weights_nonneg` on a concrete build. -/
theorem C4_reaction_edge_weights_nonneg_witness :
    (("enthalpies_positive" : String) = "enthalpies_positive" ∨
        ("enthalpies_positive" : String) = "bipartite") ∧
      ∀ e ∈ generateWeights id id "enthalpies_positive"
          [some (-2), some 1, none],
        ∀ en, e.rxnEnergy = some en → 0 ≤ e.weight :=
  ⟨Or.inl rfl, C4_reaction_edge_weights_nonneg id id "enthalpies_positive"
    (Or.inl rfl) [some (-2), some 1, none]⟩

/-- C9: `determine_rxn_weight(energy, "rectified")` returns
`max(energy, 0)`, and any cost-function name outside the five known
strategies falls through to weight 0 with no error raised. -/
theorem C9_rectified_max_and_unknown_zero (sp arr : ℚ → ℚ) (energy : ℚ)
    (mn : Option ℚ) (name : String)
    (hname : name ≠ "softplus" ∧ name ≠ "bipartite" ∧ name ≠ "rectified" ∧
      name ≠ "arrhenius" ∧ name ≠ "enthalpies_positive") :
    (determine_rxn_weight sp arr energy "rectified" mn).1 = max energy 0 ∧
      (determine_rxn_weight sp arr energy name mn).1 = 0 := by
  obtain ⟨h1, h2, h3, h4, h5⟩ := hname
  constructor
  · simp only [determine_rxn_weight, String.reduceEq, reduceIte]
    split_ifs with h
    · exact (max_eq_right h.le).symm
    · exact (max_eq_left (le_of_not_lt h)).symm
  · simp [determine_rxn_weight, h1, h2, h3, h4, h5]

/-- Witness for `C9_rectified_max_and_unknown_zero` at `name = "custom"`,
`energy = -3`. -/
theorem C9_rectified_max_and_unknown_zero_witness :
    (("custom" : String) ≠ "softplus" ∧ ("custom" : String) ≠ "bipartite" ∧
        ("custom" : String) ≠ "rectified" ∧
        ("custom" : String) ≠ "arrhenius" ∧
        ("custom" : String) ≠ "enthalpies_positive") ∧
      ((determine_rxn_weight id id (-3) "rectified" none).1 = max (-3) 0 ∧
        (determine_rxn_weight id id (-3) "custom" none).1 = 0) :=
  ⟨by decide, C9_rectified_max_and_unknown_zero id id (-3) none "custom"
    (by decide)⟩

/-- C7: for every list of `N` pairwise-distinct entries and every bound
`M ≥ 1`, `generate_all_combos(entries, M)` returns exactly
`C(N,1)+...+C(N,M)` combinations, each of size between 1 and `M`
inclusive (as a set: no entry repeated within a combination), with no
combination generated twice; the output is a pure function of the input
list, hence deterministic. -/
theorem C7_generate_all_combos_spec {α : Type} [DecidableEq α]
    (entries : List α) (M : ℕ) (hn : entries.Nodup) (hM : 1 ≤ M) :
    (generate_all_combos entries M).length =
        ∑ k ∈ Finset.range M, entries.length.choose (k + 1) ∧
      (∀ c ∈ generate_all_combos entries M, 1 ≤ c.card ∧ c.card ≤ M) ∧
      (generate_all_combos entries M).Nodup :=
  ⟨generate_all_combos_length entries M, generate_all_combos_card hn,
    generate_all_combos_nodup M hn⟩

/-- Witness for `C7_generate_all_combos_spec` on three entries, `M = 2`:
`3 + 3 = 6` combinations. -/
theorem C7_generate_all_combos_spec_witness :
    ([0, 1, 2] : List ℕ).Nodup ∧ 1 ≤ 2 ∧
      ((generate_all_combos ([0, 1, 2] : List ℕ) 2).length =
          ∑ k ∈ Finset.range 2, (3 : ℕ).choose (k + 1) ∧
        (∀ c ∈ generate_all_combos ([0, 1, 2] : List ℕ) 2,
          1 ≤ c.card ∧ c.card ≤ 2) ∧
        (generate_all_combos ([0, 1, 2] : List ℕ) 2).Nodup) :=
  ⟨by decide, by decide,
    C7_generate_all_combos_spec [0, 1, 2] 2 (by decide) (by decide)⟩

/-! ## Reaction-edge generation (core.py lines 128–155)

The external balancer (`pymatgen.ComputedReaction`) is an out-of-scope
collaborator: it is modelled as an abstract function returning `none`
when construction raises (the `except: continue`) and otherwise the data
the loop inspects.  `rxn.TOLERANCE` is an abstract positive constant of
the collaborator, passed as the parameter `tol`. -/

/-- An entry as seen by the edge-generation loop: an opaque identity,
`composition.elements` as a set, and `composition.reduced_composition`
as an opaque id. -/
structure CEntry where
  eid : ℕ
  elems : Finset ℕ
  redComp : ℕ
deriving DecidableEq

/-- The outcome of `ComputedReaction(list(reactants), list(products))` as
consumed by the loop: `rxn.coeffs`, `set(rxn.reactants)` and
`set(rxn.products)` (reduced compositions).  Energy and atom counts feed
only the weight computation, covered by the cost-model section. -/
structure CRxn where
  coeffs : List ℚ
  rReactants : Finset ℕ
  rProducts : Finset ℕ
deriving DecidableEq

/-- `set([elem for entry in c for elem in entry.composition.elements])`. -/
def elemsOf (c : Finset CEntry) : Finset ℕ := c.sup CEntry.elems

/-- `{x.composition.reduced_composition for x in c}`. -/
def redCompsOf (c : Finset CEntry) : Finset ℕ := c.image CEntry.redComp

/-- Body of the nested pair loop (core.py 128–149): the reaction attached
to the new edge Reactants(R)→Products(P), or `none` when the pair is
skipped.  In source order: the `products == reactants` skip, the
element-set skip, the `try` around the external balancer (`none` =
exception swallowed by `except: continue`), then the
`True in (abs(rxn.coeffs) < rxn.TOLERANCE)` check and the two
side-change checks, any of which `continue`s. -/
def rxnEdgeFor (bal : Finset CEntry → Finset CEntry → Option CRxn) (tol : ℚ)
    (reactants products : Finset CEntry) : Option CRxn :=
  if products = reactants then none
  else if elemsOf reactants ≠ elemsOf products then none
  else
    match bal reactants products with
    | none => none
    | some rxn =>
      if (∃ c ∈ rxn.coeffs, |c| < tol) ∨
          redCompsOf reactants ≠ rxn.rReactants ∨
          redCompsOf products ≠ rxn.rProducts then none
      else some rxn

/-- The reaction edges added by the double loop over `self._all_combos`
(outer loop: products, inner loop: reactants), as the list of
`(reactants, products, rxn)` triples passed to `g.add_edge`. -/
def genReactionEdges (bal : Finset CEntry → Finset CEntry → Option CRxn)
    (tol : ℚ) (combos : List (Finset CEntry)) :
    List (Finset CEntry × Finset CEntry × CRxn) :=
  combos.flatMap fun products =>
    combos.flatMap fun reactants =>
      match rxnEdgeFor bal tol reactants products with
      | some rxn => [(reactants, products, rxn)]
      | none => []

/-- Success characterisation of the loop body. -/
lemma rxnEdgeFor_eq_some {bal : Finset CEntry → Finset CEntry → Option CRxn}
    {tol : ℚ} {R P : Finset CEntry} {rxn : CRxn} :
    rxnEdgeFor bal tol R P = some rxn ↔
      P ≠ R ∧ elemsOf R = elemsOf P ∧ bal R P = some rxn ∧
        (∀ c ∈ rxn.coeffs, ¬ |c| < tol) ∧
        redCompsOf R = rxn.rReactants ∧ redCompsOf P = rxn.rProducts := by
  unfold rxnEdgeFor
  by_cases h1 : P = R
  · simp [h1]
  · rw [if_neg h1]
    by_cases h2 : elemsOf R ≠ elemsOf P
    · simp [if_pos h2, h1, h2]
    · rw [if_neg h2]
      push_neg at h2
      cases hb : bal R P with
      | none => simp [h1, h2]
      | some rxn' =>
        dsimp only
        by_cases h3 : (∃ c ∈ rxn'.coeffs, |c| < tol) ∨
            redCompsOf R ≠ rxn'.rReactants ∨ redCompsOf P ≠ rxn'.rProducts
        · rw [if_pos h3]
          constructor
          · intro h; cases h
          · rintro ⟨-, -, hbal, hc, hr, hp⟩
            obtain rfl := Option.some.inj hbal
            rcases h3 with h | h | h
            · rcases h with ⟨c, hc1, hc2⟩; exact absurd hc2 (hc c hc1)
            · exact absurd hr h
            · exact absurd hp h
        · rw [if_neg h3]
          push_neg at h3
          constructor
          · intro h
            obtain rfl := Option.some.inj h
            exact ⟨h1, h2, rfl, fun c hc => not_lt.mpr (h3.1 c hc),
              h3.2.1, h3.2.2⟩
          · rintro ⟨-, -, hbal, -, -, -⟩
            rw [Option.some.inj hbal]

/-- C5: during `generate_rxn_network`, a reaction edge
Reactants(R)→Products(P) is added exactly when R ≠ P, the element sets
agree, and the external balancer succeeds with no coefficient of
magnitude below tolerance and no composition changing sides or
disappearing; every failing candidate pair is silently skipped (it simply
contributes no edge — the embedding is total, mirroring the swallowed
exception). -/
theorem C5_reaction_edge_added_iff
    (bal : Finset CEntry → Finset CEntry → Option CRxn) (tol : ℚ)
    (combos : List (Finset CEntry)) (R P : Finset CEntry) (rxn : CRxn) :
    (R, P, rxn) ∈ genReactionEdges bal tol combos ↔
      R ∈ combos ∧ P ∈ combos ∧ P ≠ R ∧ elemsOf R = elemsOf P ∧
        bal R P = some rxn ∧ (∀ c ∈ rxn.coeffs, ¬ |c| < tol) ∧
        redCompsOf R = rxn.rReactants ∧ redCompsOf P = rxn.rProducts := by
  simp only [genReactionEdges, List.mem_flatMap]
  constructor
  · rintro ⟨P', hP', R', hR', hmem⟩
    cases hcase : rxnEdgeFor bal tol R' P' with
    | none => rw [hcase] at hmem; simp at hmem
    | some rxn' =>
      rw [hcase] at hmem
      simp only [List.mem_singleton, Prod.mk.injEq] at hmem
      obtain ⟨rfl, rfl, rfl⟩ := hmem
      rcases rxnEdgeFor_eq_some.mp hcase with ⟨h1, h2, h3, h4, h5, h6⟩
      exact ⟨hR', hP', h1, h2, h3, h4, h5, h6⟩
  · rintro ⟨hR, hP, hne, helems, hbal, hcoef, hrr, hrp⟩
    refine ⟨P, hP, R, hR, ?_⟩
    rw [rxnEdgeFor_eq_some.mpr ⟨hne, helems, hbal, hcoef, hrr, hrp⟩]
    simp

/-! ## Pathway aggregates (src/rxn_network/pathways/base.py) -/

/-- A reaction as consumed by `Pathway`: `rxn.reactants`, `rxn.products`
(sets of entries, here opaque ids) and `rxn.energy`. -/
structure PRxn where
  reactants : Finset ℕ
  products : Finset ℕ
  energy : ℚ
deriving DecidableEq

/-- `Pathway`: carries the ordered list `self._reactions`. -/
structure Pathway where
  reactions : List PRxn
deriving DecidableEq

/-- `all_reactants`: `{entry for rxn in self._reactions for entry in rxn.reactants}`. -/
def Pathway.all_reactants (p : Pathway) : Finset ℕ :=
  p.reactions.foldr (fun r acc => r.reactants ∪ acc) ∅

/-- `all_products`: `{entry for rxn in self._reactions for entry in rxn.products}`. -/
def Pathway.all_products (p : Pathway) : Finset ℕ :=
  p.reactions.foldr (fun r acc => r.products ∪ acc) ∅

/-- `reactants`: `self.all_reactants - self.all_products`. -/
def Pathway.reactants (p : Pathway) : Finset ℕ :=
  p.all_reactants \ p.all_products

/-- `products`: `self.all_products - self.all_reactants`. -/
def Pathway.products (p : Pathway) : Finset ℕ :=
  p.all_products \ p.all_reactants

/-- `intermediates`: `self.all_products & self.all_reactants` — the
intersection is taken over ALL steps, not only consecutive ones. -/
def Pathway.intermediates (p : Pathway) : Finset ℕ :=
  p.all_products ∩ p.all_reactants

/-- `energy`: `sum(rxn.energy for rxn in self._reactions)`. -/
def Pathway.energy (p : Pathway) : ℚ :=
  (p.reactions.map PRxn.energy).sum

/-- Modelled from the spec's words, for comparison with the source's
`Pathway.intermediates`: "intermediates = products∩reactants of
consecutive steps", read as the union over consecutive step pairs
(i, i+1) of (products of step i) ∩ (reactants of step i+1). -/
def specConsecutiveIntermediates (p : Pathway) : Finset ℕ :=
  (p.reactions.zip p.reactions.tail).foldr
    (fun rr acc => (rr.1.products ∩ rr.2.reactants) ∪ acc) ∅

lemma mem_foldr_union {f : PRxn → Finset ℕ} :
    ∀ (l : List PRxn) (e : ℕ),
      e ∈ l.foldr (fun r acc => f r ∪ acc) ∅ ↔ ∃ r ∈ l, e ∈ f r := by
  intro l
  induction l with
  | nil => intro e; simp
  | cons r rest ih => intro e; simp [List.foldr_cons, ih]

lemma mem_all_reactants {p : Pathway} {e : ℕ} :
    e ∈ p.all_reactants ↔ ∃ r ∈ p.reactions, e ∈ r.reactants :=
  mem_foldr_union p.reactions e

lemma mem_all_products {p : Pathway} {e : ℕ} :
    e ∈ p.all_products ↔ ∃ r ∈ p.reactions, e ∈ r.products :=
  mem_foldr_union p.reactions e

/-- C8 (counterexample): a three-step pathway a→b, c→d, b→e.  Entry `b`
is a product of step 1 and a reactant of step 3 — steps that are NOT
consecutive — so the source's `intermediates` = {b} while the
"consecutive steps" reading gives ∅. -/
theorem C8_counterexample :
    Pathway.intermediates ⟨[⟨{1}, {2}, 0⟩, ⟨{3}, {4}, 0⟩, ⟨{2}, {5}, 0⟩]⟩ ≠
      specConsecutiveIntermediates
        ⟨[⟨{1}, {2}, 0⟩, ⟨{3}, {4}, 0⟩, ⟨{2}, {5}, 0⟩]⟩ := by
  decide

/-- C8 (amended): for every `Pathway`, the aggregate energy is the sum of
the step energies, the aggregate reactants are the entries appearing as a
reactant of some step but as a product of no step, the aggregate products
are the entries appearing as a product of some step but as a reactant of
no step, and the intermediates are the entries appearing as a product of
some step AND as a reactant of some step (not necessarily consecutive
steps). -/
theorem C8_pathway_aggregates (p : Pathway) :
    p.energy = (p.reactions.map PRxn.energy).sum ∧
      (∀ e, e ∈ p.reactants ↔
        (∃ r ∈ p.reactions, e ∈ r.reactants) ∧
          ∀ r ∈ p.reactions, e ∉ r.products) ∧
      (∀ e, e ∈ p.products ↔
        (∃ r ∈ p.reactions, e ∈ r.products) ∧
          ∀ r ∈ p.reactions, e ∉ r.reactants) ∧
      (∀ e, e ∈ p.intermediates ↔
        (∃ r ∈ p.reactions, e ∈ r.products) ∧
          ∃ r ∈ p.reactions, e ∈ r.reactants) := by
  refine ⟨rfl, ?_, ?_, ?_⟩
  · intro e
    rw [Pathway.reactants, Finset.mem_sdiff, mem_all_reactants,
      mem_all_products]
    simp
  · intro e
    rw [Pathway.products, Finset.mem_sdiff, mem_all_products,
      mem_all_reactants]
    simp
  · intro e
    rw [Pathway.intermediates, Finset.mem_inter, mem_all_products,
      mem_all_reactants]

/-! ## core.py structural edges: loopback links and target links

Entries are opaque ids (ℕ); the linear order on ℕ is used only to model
Python's `list(set)` conversion deterministically (the properties proved
are order-independent). -/

/-- `list(s)` for a Python set `s`. -/
def sortedList (s : Finset ℕ) : List ℕ := s.sort (· ≤ ·)

/-- The loopback edges added for one Products-combination
(core.py 117–123): in complex mode one zero-weight edge to each
combination drawn from `products ∪ starters`; in simple mode a single
edge back to the same combination. -/
def loopbacksFor (complexLb : Bool) (M : ℕ) (starters products : Finset ℕ) :
    List (Finset ℕ × Finset ℕ) :=
  if complexLb then
    (generate_all_combos (sortedList (products ∪ starters)) M).map
      fun combo => (products, combo)
  else [(products, products)]

/-- All loopback edges added by `generate_rxn_network`. -/
def buildLoopbacks (complexLb : Bool) (M : ℕ) (combos : List (Finset ℕ))
    (starters : Finset ℕ) : List (Finset ℕ × Finset ℕ) :=
  combos.flatMap (loopbacksFor complexLb M starters)

/-- `set_starters` (core.py 394–407) acting on the loopback edges in
complex mode: for each Products-combination, every edge to a combination
drawn from `products ∪ old starters` is removed (`remove_edge`; in
reachable states all of them exist), then edges to all combinations drawn
from `products ∪ new starters` are added. -/
def setStartersLoopbacks (M : ℕ) (combos : List (Finset ℕ))
    (oldStarters newStarters : Finset ℕ)
    (edges : List (Finset ℕ × Finset ℕ)) : List (Finset ℕ × Finset ℕ) :=
  (edges.filter fun e =>
    decide (¬ (e.1 ∈ combos ∧
      e.2 ∈ generate_all_combos (sortedList (e.1 ∪ oldStarters)) M)))
    ++ buildLoopbacks true M combos newStarters

/-- Every generated combination is drawn from the source list. -/
lemma generate_all_combos_subset {l : List ℕ} {M : ℕ} {c : Finset ℕ}
    (hc : c ∈ generate_all_combos l M) : c ⊆ l.toFinset := by
  rcases List.mem_map.mp hc with ⟨l', hl', rfl⟩
  rcases (mem_combos_flat l M l').mp hl' with ⟨hsub, -, -⟩
  intro x hx
  exact List.mem_toFinset.mpr (hsub.subset (List.mem_toFinset.mp hx))

lemma sortedList_toFinset (s : Finset ℕ) : (sortedList s).toFinset = s := by
  ext x
  simp [sortedList, List.mem_toFinset, Finset.mem_sort]

/-- Loopback edges produced at build time satisfy the invariant. -/
lemma buildLoopbacks_invariant (complexLb : Bool) (M : ℕ)
    (combos : List (Finset ℕ)) (starters : Finset ℕ) :
    ∀ e ∈ buildLoopbacks complexLb M combos starters,
      (complexLb = true → e.2 ⊆ e.1 ∪ starters) ∧
      (complexLb = false → e.2 = e.1) := by
  intro e he
  rcases List.mem_flatMap.mp he with ⟨p, hp, hfor⟩
  cases complexLb with
  | false =>
    simp only [loopbacksFor, if_neg (Bool.false_ne_true), List.mem_singleton]
      at hfor
    exact ⟨fun h => absurd h Bool.false_ne_true, fun _ => (by rw [hfor])⟩
  | true =>
    simp only [loopbacksFor, if_pos rfl] at hfor
    rcases List.mem_map.mp hfor with ⟨c, hc, rfl⟩
    refine ⟨fun _ => ?_, fun h => absurd h (by simp)⟩
    have := generate_all_combos_subset hc
    rwa [sortedList_toFinset] at this

/-- After `set_starters`, every loopback edge satisfies the invariant with
respect to the NEW starters: the removal enumerates exactly the edges
generated from the old starters, so no stale edge survives. -/
lemma setStartersLoopbacks_invariant (M : ℕ) (combos : List (Finset ℕ))
    (oldS newS : Finset ℕ) (edges : List (Finset ℕ × Finset ℕ))
    (hedges : edges = buildLoopbacks true M combos oldS) :
    ∀ e ∈ setStartersLoopbacks M combos oldS newS edges,
      e.2 ⊆ e.1 ∪ newS := by
  intro e he
  rcases List.mem_append.mp he with hf | hnew
  · exfalso
    rcases List.mem_filter.mp hf with ⟨hin, hcond⟩
    rw [hedges] at hin
    rcases List.mem_flatMap.mp hin with ⟨p, hp, hfor⟩
    simp only [loopbacksFor, if_pos rfl] at hfor
    rcases List.mem_map.mp hfor with ⟨c, hc, rfl⟩
    rw [decide_eq_true_iff] at hcond
    exact hcond ⟨hp, hc⟩
  · exact ((buildLoopbacks_invariant true M combos newS) e hnew).1 rfl

/-- The network state of `rxn_network/core.py` as relevant to
`set_target`: the `_selected_target` list and the structural edge sets
that `set_target` may touch, plus the fields it must not touch. -/
structure CoreState where
  combos : List (Finset ℕ)
  maxM : ℕ
  starters : Finset ℕ
  complexLb : Bool
  selectedTarget : List ℕ
  starterEdges : List (Finset ℕ)
  loopEdges : List (Finset ℕ × Finset ℕ)
  targetEdges : List (Finset ℕ)
deriving DecidableEq

/-- `ReactionNetwork.set_target` (core.py 409–438): returns immediately
when the new target is already in `self._selected_target` (lines
419–420); otherwise replaces the target node, relinking every
Products-combination that is a superset of the target set. -/
def coreSetTarget (s : CoreState) (target : ℕ) : CoreState :=
  if target ∈ s.selectedTarget then s
  else
    { s with
      selectedTarget := [target]
      targetEdges := s.combos.filter fun p => decide (target ∈ p) }

/-! ## network.py: graph build, `set_precursors`, `set_target`

`NetworkEntry` (network/entry.py) wraps an entry set and a
`NetworkEntryType` tag; rustworkx node indices are stable under removal.
In this model a removed slot becomes `none` and `add_node` always
allocates a fresh index (rustworkx may reuse freed indices; the two
graphs are isomorphic and all properties proved are index-agnostic).
The base `Network` class (`rxn_network/core/network.py`) is not in the
repository snapshot; its `entries` universe and the initial
`precursors`/`target` values are modelled from the spec (entry-input
contract, §3): `entries` is the set of all entries of the reaction set,
and precursors/target start unset. -/

inductive NType
  | Precursors
  | Reactants
  | Products
  | Target
deriving DecidableEq

structure NNode where
  entries : Finset ℕ
  ty : NType
deriving DecidableEq

inductive ETag
  | rxn (i : ℕ)
  | loopback
  | precursorE
  | targetE
deriving DecidableEq

structure NGraph where
  nodes : List (Option NNode)
  edges : List (ℕ × ℕ × ETag)
deriving DecidableEq

def nodeData (g : NGraph) (i : ℕ) : Option NNode := g.nodes.getD i none

def nodeIndices (g : NGraph) : List ℕ :=
  (g.nodes.enum.filter fun p => p.2.isSome).map Prod.fst

def removeNode (g : NGraph) (i : ℕ) : NGraph :=
  ⟨g.nodes.set i none, g.edges.filter fun e => decide (e.1 ≠ i ∧ e.2.1 ≠ i)⟩

def addNode (g : NGraph) (n : NNode) : NGraph × ℕ :=
  (⟨g.nodes ++ [some n], g.edges⟩, g.nodes.length)

/-- First node index whose data has the given type (the
`for node in g.node_indices(): ... break` search pattern). -/
def firstNodeOfType (g : NGraph) (ty : NType) : Option ℕ :=
  ((g.nodes.enum.find? fun p =>
    match p.2 with
    | some n => decide (n.ty = ty)
    | none => false).map Prod.fst)

/-- `get_rxn_nodes_and_edges` (network.py 339–371): one Reactants and one
Products node per reaction, deduplicated by node equality; one edge per
reaction carrying the reaction (modelled by its index). -/
def getRxnNodesAndEdges :
    List (Finset ℕ × Finset ℕ) → ℕ → List NNode → List (ℕ × ℕ × ETag) →
      List NNode × List (ℕ × ℕ × ETag)
  | [], _, nodes, edges => (nodes, edges)
  | r :: rest, i, nodes, edges =>
    let rnode : NNode := ⟨r.1, .Reactants⟩
    let pnode : NNode := ⟨r.2, .Products⟩
    let ri := (nodes.findIdx? (fun n => decide (n = rnode))).getD nodes.length
    let nodes1 := if rnode ∈ nodes then nodes else nodes ++ [rnode]
    let pj := (nodes1.findIdx? (fun n => decide (n = pnode))).getD nodes1.length
    let nodes2 := if pnode ∈ nodes1 then nodes1 else nodes1 ++ [pnode]
    getRxnNodesAndEdges rest (i + 1) nodes2 (edges ++ [(ri, pj, .rxn i)])

/-- `get_loopback_edges` (network.py 374–397): an edge from every
Products node to the Reactants node with the identical entry set. -/
def getLoopbackEdges (nodes : List NNode) : List (ℕ × ℕ × ETag) :=
  nodes.enum.flatMap fun ip =>
    if ip.2.ty = .Products then
      nodes.enum.flatMap fun jr =>
        if jr.2.ty = .Reactants ∧ ip.2.entries = jr.2.entries then
          [(ip.1, jr.1, ETag.loopback)]
        else []
    else []

/-- `ReactionNetwork.build` (network.py 49–68). -/
def netBuild (rxns : List (Finset ℕ × Finset ℕ)) : NGraph :=
  let np := getRxnNodesAndEdges rxns 0 [] []
  ⟨np.1.map some, np.2 ++ getLoopbackEdges np.1⟩

/-- Modelled from the spec: the entry universe `self.entries` of the
missing base `Network` class — the entries of all reactions. -/
def entriesOf (rxns : List (Finset ℕ × Finset ℕ)) : Finset ℕ :=
  rxns.foldr (fun r acc => r.1 ∪ r.2 ∪ acc) ∅

structure NetState where
  g : Option NGraph
  precursors : Option (Finset ℕ)
  target : Option ℕ
  entries : Finset ℕ
deriving DecidableEq

/-- A freshly built network: graph present, no precursors or target yet. -/
def netInit (rxns : List (Finset ℕ × Finset ℕ)) : NetState :=
  ⟨some (netBuild rxns), none, none, entriesOf rxns⟩

/-- Python truthiness of `self.precursors` (`None` and the empty set are
falsy). -/
def truthySet : Option (Finset ℕ) → Bool
  | none => false
  | some s => decide (s ≠ ∅)

/-- The `edges_to_add` loop of `set_precursors` (network.py 141–157),
run after the new precursors node `pn` has been inserted: precursor
edges to Reactants nodes contained in the precursor set, and loopback
edges Products→Reactants for every reactant combination not already
covered by the precursors but covered by precursors ∪ products. -/
def precursorEdgesToAdd (g : NGraph) (pn : ℕ) (pre : Finset ℕ) :
    List (ℕ × ℕ × ETag) :=
  (nodeIndices g).flatMap fun i =>
    match nodeData g i with
    | none => []
    | some entry =>
      if entry.ty = .Reactants then
        if entry.entries ⊆ pre then [(pn, i, ETag.precursorE)] else []
      else if entry.ty = .Products then
        (nodeIndices g).flatMap fun j =>
          match nodeData g j with
          | none => []
          | some entry2 =>
            if entry2.ty = .Reactants then
              if entry2.entries ⊆ pre then []
              else if entry2.entries ⊆ pre ∪ entry.entries then
                [(i, j, ETag.loopback)]
              else []
            else []
      else []

/-- `ReactionNetwork.set_precursors` (network.py 96–159), for entry-set
input (string input goes through `get_min_entry_by_formula` of the
missing entry database and is out of scope here).  Old loopback or
precursor edges not incident to the old Precursors node are NOT
removed. -/
def netSetPrecursors (s : NetState) (precursors : Finset ℕ) :
    Except String NetState :=
  match s.g with
  | none => .error "Must call build() before setting precursors!"
  | some g0 =>
    if s.precursors = some precursors then .ok s
    else if ¬ precursors ⊆ s.entries then
      .error "One or more precursors are not included in network!"
    else
      let step1 : Except String NGraph :=
        if truthySet s.precursors then
          match firstNodeOfType g0 .Precursors with
          | some i => .ok (removeNode g0 i)
          | none => .error "Old precursors node not found in graph!"
        else .ok g0
      match step1 with
      | .error e => .error e
      | .ok g1 =>
        let ap := addNode g1 ⟨precursors, .Precursors⟩
        let newEdges := precursorEdgesToAdd ap.1 ap.2 precursors
        .ok { s with
              g := some ⟨ap.1.nodes, ap.1.edges ++ newEdges⟩,
              precursors := some precursors }

/-- The `edges_to_add` loop of `set_target` (network.py 203–211). -/
def targetEdgesToAdd (g : NGraph) (tn : ℕ) (target : ℕ) :
    List (ℕ × ℕ × ETag) :=
  (nodeIndices g).flatMap fun i =>
    match nodeData g i with
    | none => []
    | some entry =>
      if entry.ty = .Products then
        if target ∈ entry.entries then [(i, tn, ETag.targetE)] else []
      else []

/-- `ReactionNetwork.set_target` (network.py 161–215), for entry input. -/
def netSetTarget (s : NetState) (target : ℕ) : Except String NetState :=
  match s.g with
  | none => .error "Must call build() before setting target!"
  | some g0 =>
    if s.target = some target then .ok s
    else if target ∉ s.entries then
      .error "Target is not included in network!"
    else
      let step1 : Except String NGraph :=
        if s.target.isSome then
          match firstNodeOfType g0 .Target with
          | some i => .ok (removeNode g0 i)
          | none => .error "Old target node not found in graph!"
        else .ok g0
      match step1 with
      | .error e => .error e
      | .ok g1 =>
        let ap := addNode g1 ⟨{target}, .Target⟩
        let newEdges := targetEdgesToAdd ap.1 ap.2 target
        .ok { s with
              g := some ⟨ap.1.nodes, ap.1.edges ++ newEdges⟩,
              target := some target }

/-- Loopback edges created by `get_loopback_edges` connect a Products
node to the Reactants node with the identical entry set. -/
lemma getLoopbackEdges_eq {nodes : List NNode} {u v : ℕ}
    (h : (u, v, ETag.loopback) ∈ getLoopbackEdges nodes) :
    ∃ p r, nodes[u]? = some p ∧ nodes[v]? = some r ∧
      p.ty = .Products ∧ r.ty = .Reactants ∧ r.entries = p.entries := by
  rcases List.mem_flatMap.mp h with ⟨ip, hip, hmem⟩
  by_cases h1 : ip.2.ty = NType.Products
  · rw [if_pos h1] at hmem
    rcases List.mem_flatMap.mp hmem with ⟨jr, hjr, hmem2⟩
    by_cases h2 : jr.2.ty = NType.Reactants ∧ ip.2.entries = jr.2.entries
    · rw [if_pos h2] at hmem2
      simp only [List.mem_singleton, Prod.mk.injEq] at hmem2
      obtain ⟨hu, hv, -⟩ := hmem2
      refine ⟨ip.2, jr.2, ?_, ?_, h1, h2.1, h2.2.symm⟩
      · rw [hu]; exact List.mem_enum_iff_getElem?.mp hip
      · rw [hv]; exact List.mem_enum_iff_getElem?.mp hjr
    · rw [if_neg h2] at hmem2; simp at hmem2
  · rw [if_neg h1] at hmem; simp at hmem

/-- Loopback edges appended by one `set_precursors` call satisfy the
containment invariant with respect to THAT call's precursor set. -/
lemma precursorEdgesToAdd_loopback {g : NGraph} {pn : ℕ} {pre : Finset ℕ}
    {u v : ℕ} (h : (u, v, ETag.loopback) ∈ precursorEdgesToAdd g pn pre) :
    ∃ p r, nodeData g u = some p ∧ nodeData g v = some r ∧
      p.ty = .Products ∧ r.ty = .Reactants ∧
      r.entries ⊆ p.entries ∪ pre := by
  rcases List.mem_flatMap.mp h with ⟨i, hi, hmem⟩
  cases hd : nodeData g i with
  | none => rw [hd] at hmem; simp at hmem
  | some entry =>
    rw [hd] at hmem
    dsimp only at hmem
    by_cases h1 : entry.ty = NType.Reactants
    · rw [if_pos h1] at hmem
      by_cases h2 : entry.entries ⊆ pre
      · rw [if_pos h2] at hmem; simp at hmem
      · rw [if_neg h2] at hmem; simp at hmem
    · rw [if_neg h1] at hmem
      by_cases h2 : entry.ty = NType.Products
      · rw [if_pos h2] at hmem
        rcases List.mem_flatMap.mp hmem with ⟨j, hj, hmem2⟩
        cases hd2 : nodeData g j with
        | none => rw [hd2] at hmem2; simp at hmem2
        | some entry2 =>
          rw [hd2] at hmem2
          dsimp only at hmem2
          by_cases h3 : entry2.ty = NType.Reactants
          · rw [if_pos h3] at hmem2
            by_cases h4 : entry2.entries ⊆ pre
            · rw [if_pos h4] at hmem2; simp at hmem2
            · rw [if_neg h4] at hmem2
              by_cases h5 : entry2.entries ⊆ pre ∪ entry.entries
              · rw [if_pos h5] at hmem2
                simp only [List.mem_singleton, Prod.mk.injEq] at hmem2
                obtain ⟨hu, hv, -⟩ := hmem2
                refine ⟨entry, entry2, (by rw [hu]; exact hd),
                  (by rw [hv]; exact hd2), h2, h3, ?_⟩
                rw [Finset.union_comm]
                exact h5
              · rw [if_neg h5] at hmem2; simp at hmem2
          · rw [if_neg h3] at hmem2; simp at hmem2
      · rw [if_neg h2] at hmem; simp at hmem

/-- C6 (amended): the loopback invariant holds where the code enforces
it — (i) at `generate_rxn_network` build time in core.py, simple mode
gives destination = source, complex mode gives
destination ⊆ source ∪ starters; (ii) it is restored by every core.py
`set_starters` call (all old loopback edges are removed before the new
ones are created); (iii) in network.py, build-time loopback edges connect
equal combinations, and the loopback edges ADDED by a `set_precursors`
call satisfy destination ⊆ source ∪ precursors at the time of that call.
(It does NOT persist across network.py `set_precursors` calls, which
never remove loopback edges of earlier calls — see the
counterexample.) -/
theorem C6_loopback_invariant (complexLb : Bool) (M : ℕ)
    (combos : List (Finset ℕ)) (starters oldS newS : Finset ℕ)
    (edges : List (Finset ℕ × Finset ℕ))
    (hedges : edges = buildLoopbacks true M combos oldS)
    (nodes : List NNode) (g : NGraph) (pn : ℕ) (pre : Finset ℕ) :
    (∀ e ∈ buildLoopbacks complexLb M combos starters,
        (complexLb = true → e.2 ⊆ e.1 ∪ starters) ∧
        (complexLb = false → e.2 = e.1)) ∧
      (∀ e ∈ setStartersLoopbacks M combos oldS newS edges,
        e.2 ⊆ e.1 ∪ newS) ∧
      (∀ u v, (u, v, ETag.loopback) ∈ getLoopbackEdges nodes →
        ∃ p r, nodes[u]? = some p ∧ nodes[v]? = some r ∧
          p.ty = .Products ∧ r.ty = .Reactants ∧ r.entries = p.entries) ∧
      (∀ u v, (u, v, ETag.loopback) ∈ precursorEdgesToAdd g pn pre →
        ∃ p r, nodeData g u = some p ∧ nodeData g v = some r ∧
          p.ty = .Products ∧ r.ty = .Reactants ∧
          r.entries ⊆ p.entries ∪ pre) :=
  ⟨buildLoopbacks_invariant complexLb M combos starters,
    setStartersLoopbacks_invariant M combos oldS newS edges hedges,
    fun _ _ h => getLoopbackEdges_eq h,
    fun _ _ h => precursorEdgesToAdd_loopback h⟩

/-- Reactions for the C6 run: b→x and a+x→y (a=1, b=2, x=3, y=4). -/
def c6rxns : List (Finset ℕ × Finset ℕ) := [({2}, {3}), ({1, 3}, {4})]

/-- State after `build()` and `set_precursors({a})`. -/
def c6state1 : Except String NetState := netSetPrecursors (netInit c6rxns) {1}

/-- State after a second call `set_precursors({b})`. -/
def c6state2 : Except String NetState :=
  match c6state1 with
  | .ok s => netSetPrecursors s {2}
  | .error e => .error e

/-- The graph after the two `set_precursors` calls. -/
def c6graph : NGraph :=
  match c6state2 with
  | .ok s => s.g.getD ⟨[], []⟩
  | .error _ => ⟨[], []⟩

/-- Witness for `C6_loopback_invariant` (its only hypothesis is the
build-canonical shape of the core.py loopback edge list, discharged
definitionally). -/
theorem C6_loopback_invariant_witness :
    buildLoopbacks true 2 [{3}] {1} = buildLoopbacks true 2 [{3}] {1} ∧
      ((∀ e ∈ buildLoopbacks true 2 [{3}] {1},
          (true = true → e.2 ⊆ e.1 ∪ {1}) ∧ (true = false → e.2 = e.1)) ∧
        (∀ e ∈ setStartersLoopbacks 2 [{3}] {1} {2}
            (buildLoopbacks true 2 [{3}] {1}),
          e.2 ⊆ e.1 ∪ {2}) ∧
        (∀ u v, (u, v, ETag.loopback) ∈
            getLoopbackEdges [⟨{3}, .Products⟩, ⟨{3}, .Reactants⟩] →
          ∃ p r,
            ([⟨{3}, .Products⟩, ⟨{3}, .Reactants⟩] : List NNode)[u]? =
                some p ∧
              ([⟨{3}, .Products⟩, ⟨{3}, .Reactants⟩] : List NNode)[v]? =
                some r ∧
              p.ty = .Products ∧ r.ty = .Reactants ∧
              r.entries = p.entries) ∧
        (∀ u v, (u, v, ETag.loopback) ∈ precursorEdgesToAdd c6graph 6 {2} →
          ∃ p r, nodeData c6graph u = some p ∧ nodeData c6graph v = some r ∧
            p.ty = .Products ∧ r.ty = .Reactants ∧
            r.entries ⊆ p.entries ∪ {2})) :=
  ⟨rfl,
    C6_loopback_invariant true 2 [{3}] {1} {1} {2}
      (buildLoopbacks true 2 [{3}] {1}) rfl
      [⟨{3}, .Products⟩, ⟨{3}, .Reactants⟩] c6graph 6 {2}⟩

/-- C6 (counterexample): after `build()`, `set_precursors({a})` and then
`set_precursors({b})` on the reactions b→x and a+x→y, the loopback edge
Products{x} → Reactants{a,x} added by the FIRST call survives the second
call (which removes only the old Precursors node and its incident
edges), and {a,x} ⊄ {x} ∪ {b}: the loopback invariant does not still
hold after every `set_precursors` call. -/
theorem C6_counterexample :
    ((match c6state2 with
      | .ok s => s.precursors
      | .error _ => none) = some ({2} : Finset ℕ)) ∧
      ∃ e ∈ c6graph.edges, e.2.2 = ETag.loopback ∧
        ((nodeData c6graph e.1).getD ⟨∅, .Target⟩).ty = .Products ∧
        ((nodeData c6graph e.2.1).getD ⟨∅, .Target⟩).ty = .Reactants ∧
        ¬ (((nodeData c6graph e.2.1).getD ⟨∅, .Target⟩).entries ⊆
            ((nodeData c6graph e.1).getD ⟨∅, .Target⟩).entries ∪ {2}) := by
  decide

/-- C10: replacing the target by the currently selected target, or the
precursors by the current precursor set, returns immediately and leaves
the graph and all other network state unchanged — in network.py
`set_precursors`/`set_target` and in core.py `set_target`. -/
theorem C10_set_same_noop (s : NetState) (pre : Finset ℕ) (tgt : ℕ)
    (cs : CoreState) (t0 : ℕ) (hg : s.g.isSome = true)
    (hpre : s.precursors = some pre) (htgt : s.target = some tgt)
    (ht0 : t0 ∈ cs.selectedTarget) :
    netSetPrecursors s pre = .ok s ∧ netSetTarget s tgt = .ok s ∧
      coreSetTarget cs t0 = cs := by
  obtain ⟨g0, hg0⟩ := Option.isSome_iff_exists.mp hg
  refine ⟨?_, ?_, ?_⟩
  · simp [netSetPrecursors, hg0, hpre]
  · simp [netSetTarget, hg0, htgt]
  · simp [coreSetTarget, ht0]

/-- Witness for `C10_set_same_noop` on concrete states. -/
theorem C10_set_same_noop_witness :
    ((⟨some ⟨[], []⟩, some {1}, some 2, {1, 2}⟩ : NetState).g.isSome = true ∧
      (⟨some ⟨[], []⟩, some {1}, some 2, {1, 2}⟩ : NetState).precursors =
        some {1} ∧
      (⟨some ⟨[], []⟩, some {1}, some 2, {1, 2}⟩ : NetState).target =
        some 2 ∧
      (5 : ℕ) ∈
        (⟨[], 2, ∅, true, [5], [], [], []⟩ : CoreState).selectedTarget) ∧
      (netSetPrecursors ⟨some ⟨[], []⟩, some {1}, some 2, {1, 2}⟩ {1} =
          .ok ⟨some ⟨[], []⟩, some {1}, some 2, {1, 2}⟩ ∧
        netSetTarget ⟨some ⟨[], []⟩, some {1}, some 2, {1, 2}⟩ 2 =
          .ok ⟨some ⟨[], []⟩, some {1}, some 2, {1, 2}⟩ ∧
        coreSetTarget ⟨[], 2, ∅, true, [5], [], [], []⟩ 5 =
          ⟨[], 2, ∅, true, [5], [], [], []⟩) :=
  ⟨⟨rfl, rfl, rfl, (by decide)⟩,
    C10_set_same_noop ⟨some ⟨[], []⟩, some {1}, some 2, {1, 2}⟩ {1} 2
      ⟨[], 2, ∅, true, [5], [], [], []⟩ 5 rfl rfl rfl (by decide)⟩

/-! ## Yen's k-shortest paths (network.py `yens_ksp`, lines 413–509)

The rustworkx digraph: nodes are integers; each edge carries the weight
that `get_edge_weight` computes from its payload and the cost function
(0 for structural edges, `cf.evaluate(rxn)` for reaction edges), so
edges are modelled directly as weighted triples `(src, dst, weight)`.
Weights live in a linearly ordered additive commutative monoid — machine
floats under the §4.4 non-negativity precondition; the concrete runs use
ℤ.  `rx.dijkstra_shortest_paths(g, s, target=t)` is an external
collaborator, modelled from the spec ("single-source shortest path
(Dijkstra)"): under non-negative weights it returns a minimum-total-cost
simple path from `s` to `t` when one exists, and an empty (falsy)
mapping when none does or when `s = t`. -/

/-- `g.get_edge_data(u, v)`: payload (here: weight) of the first edge
between the pair, `None`/exception when absent. -/
def getEdgeData {W : Type} (es : List (ℕ × ℕ × W)) (u v : ℕ) : Option W :=
  (es.find? fun e => decide (e.1 = u ∧ e.2.1 = v)).map fun e => e.2.2

/-- `g.remove_edge(u, v)`: removes the first edge between the pair. -/
def removeEdge {W : Type} : List (ℕ × ℕ × W) → ℕ → ℕ → List (ℕ × ℕ × W)
  | [], _, _ => []
  | e :: rest, u, v =>
    if e.1 = u ∧ e.2.1 = v then rest else e :: removeEdge rest u v

/-- `path_cost(nodes)` (yens_ksp inner helper): total weight of the
edges along consecutive node pairs.  (In reachable uses every edge
exists; a missing edge contributes 0 to keep the model total.) -/
def pathCost {W : Type} [AddCommMonoid W] (es : List (ℕ × ℕ × W)) :
    List ℕ → W
  | u :: v :: rest => (getEdgeData es u v).getD 0 + pathCost es (v :: rest)
  | _ => 0

/-- Successor nodes of `u` (one occurrence per outgoing edge). -/
def successors {W : Type} (es : List (ℕ × ℕ × W)) (u : ℕ) : List ℕ :=
  (es.filter fun e => decide (e.1 = u)).map fun e => e.2.1

/-- All loop-free paths from `u` to `t` using at most `fuel` edges and
avoiding `visited`. -/
def simplePathsFrom {W : Type} (es : List (ℕ × ℕ × W)) (t : ℕ) :
    ℕ → ℕ → List ℕ → List (List ℕ)
  | 0, u, _ => if u = t then [[u]] else []
  | fuel + 1, u, visited =>
    (if u = t then [[u]] else []) ++
      ((successors es u).filter fun v => decide (v ∉ u :: visited)).flatMap
        fun v => (simplePathsFrom es t fuel v (u :: visited)).map (u :: ·)

/-- All simple paths from `s` to `t` (a simple path traverses at most
`es.length` edges). -/
def allSimplePaths {W : Type} (es : List (ℕ × ℕ × W)) (s t : ℕ) :
    List (List ℕ) :=
  simplePathsFrom es t es.length s []

/-- Modelled from the spec: the external rustworkx Dijkstra routine with
a target — a minimum-cost simple path (first minimum in the canonical
enumeration), `none` when the returned mapping is empty/falsy. -/
def dijkstraModel {W : Type} [LinearOrderedAddCommMonoid W]
    (es : List (ℕ × ℕ × W)) (s t : ℕ) : Option (List ℕ) :=
  if s = t then none
  else
    (allSimplePaths es s t).foldl
      (fun best p =>
        match best with
        | none => some p
        | some q => if pathCost es p < pathCost es q then some p else some q)
      none

/-- Python list comparison on node lists (used by the priority queue for
cost ties). -/
def listLt : List ℕ → List ℕ → Bool
  | [], [] => false
  | [], _ :: _ => true
  | _ :: _, [] => false
  | x :: xs, y :: ys => if x < y then true else if x = y then listLt xs ys else false

/-- Strict order of the `PriorityQueue` entries `(cost, path)`. -/
def pqLess {W : Type} [LinearOrder W] (x y : W × List ℕ) : Bool :=
  if x.1 < y.1 then true else if x.1 = y.1 then listLt x.2 y.2 else false

/-- `b.get(block=False)`: smallest entry and the remaining queue
(`none` on `Empty`).  Among equal entries the earliest-inserted wins. -/
def pqPopMin {W : Type} [LinearOrder W] :
    List (W × List ℕ) → Option ((W × List ℕ) × List (W × List ℕ))
  | [] => none
  | x :: rest =>
    match pqPopMin rest with
    | none => some (x, [])
    | some (m, rest') =>
      if pqLess m x then some (m, x :: rest') else some (x, rest)

/-- The edge-removal loop over the accepted paths `a` (yens_ksp lines
476–486): for every accepted path sharing the length-`i` root prefix,
remove the edge `(path[i], path[i+1])` when it exists, recording it for
restoration.  Returns the pruned graph and the removed edges. -/
def removeAlongPaths {W : Type} (i : ℕ) (rootPath : List ℕ) :
    List (List ℕ) → List (ℕ × ℕ × W) →
      List (ℕ × ℕ × W) × List (ℕ × ℕ × W)
  | [], es => (es, [])
  | p :: rest, es =>
    if i + 1 < p.length ∧ rootPath = p.take i then
      match getEdgeData es (p.getD i 0) (p.getD (i + 1) 0) with
      | some w =>
        let q := removeAlongPaths i rootPath rest
          (removeEdge es (p.getD i 0) (p.getD (i + 1) 0))
        (q.1, (p.getD i 0, p.getD (i + 1) 0, w) :: q.2)
      | none => removeAlongPaths i rootPath rest es
    else removeAlongPaths i rootPath rest es

/-- The mutable state of `yens_ksp`: the working graph copy, the accepted
paths `a`, their costs `a_costs`, and the candidate queue `b`. -/
structure YState (W : Type) where
  g : List (ℕ × ℕ × W)
  a : List (List ℕ)
  aCosts : List W
  b : List (W × List ℕ)

/-- One spur iteration (yens_ksp lines 472–497) at deviation index `i`
of the previous accepted path: prune, run the spur Dijkstra, restore the
removed edges, and push `root + spur` with its cost on the full graph. -/
def spurStep {W : Type} [LinearOrderedAddCommMonoid W] (t : ℕ)
    (prev : List ℕ) (st : YState W) (i : ℕ) : YState W :=
  let spurNode := prev.getD i 0
  let rootPath := prev.take i
  let q := removeAlongPaths i rootPath st.a st.g
  let spur := dijkstraModel q.1 spurNode t
  let gRestored := q.1 ++ q.2
  match spur with
  | some sp =>
    { st with
      g := gRestored
      b := st.b ++ [(pathCost gRestored (rootPath ++ sp), rootPath ++ sp)] }
  | none => { st with g := gRestored }

/-- The candidate-pop loop (yens_ksp lines 499–507): pop until a path
not already accepted appears (accept it) or the queue empties.  Each pop
shrinks the queue, so `b.length` pops always suffice. -/
def popPhaseFuel {W : Type} [LinearOrder W] :
    ℕ → List (W × List ℕ) → List (List ℕ) → List W →
      List (W × List ℕ) × List (List ℕ) × List W
  | 0, b, a, aCosts => (b, a, aCosts)
  | fuel + 1, b, a, aCosts =>
    match pqPopMin b with
    | none => (b, a, aCosts)
    | some (x, rest) =>
      if x.2 ∈ a then popPhaseFuel fuel rest a aCosts
      else (rest, a ++ [x.2], aCosts ++ [x.1])

def popPhase {W : Type} [LinearOrder W] (b : List (W × List ℕ))
    (a : List (List ℕ)) (aCosts : List W) :
    List (W × List ℕ) × List (List ℕ) × List W :=
  popPhaseFuel b.length b a aCosts

/-- The main loop of `yens_ksp` (`for k in range(1, num_k)`), with the
`except IndexError: break` when `a[k-1]` does not exist; `r` is the
number of remaining iterations. -/
def yensLoop {W : Type} [LinearOrderedAddCommMonoid W] (t : ℕ) :
    ℕ → ℕ → YState W → YState W
  | _, 0, st => st
  | k, r + 1, st =>
    match st.a[k - 1]? with
    | none => st
    | some prev =>
      let st1 := (List.range (prev.length - 1)).foldl (spurStep t prev) st
      let pq := popPhase st1.b st1.a st1.aCosts
      yensLoop t (k + 1) r ⟨st1.g, pq.2.1, pq.2.2, pq.1⟩

/-- `yens_ksp(g, cf, num_k, precursors_node, target_node)`
(network.py 413–509): the initial Dijkstra seeds `a`; the loop runs
`num_k - 1` times; the accepted node-paths `a` are returned. -/
def yens_ksp {W : Type} [LinearOrderedAddCommMonoid W]
    (g0 : List (ℕ × ℕ × W)) (num_k s t : ℕ) : List (List ℕ) :=
  match dijkstraModel g0 s t with
  | none => []
  | some p => (yensLoop t 1 (num_k - 1) ⟨g0, [p], [pathCost g0 p], []⟩).a

/-- The concrete graph refuting C1 (integer weights; nodes s=0, u=1,
v=2, w=3, t=4, y=5, z=6).  The shortest path is s→u→v→w→t (cost 40);
the first deviation accepted is s→u→y→z→t (cost 100); deviating from it
at z the spur Dijkstra may loop back through u — never removed from the
graph — and reuse edge (u,v), hidden when the second path was generated,
yielding s→u→y→z→u→v→w→t (cost 91): a path with a repeated node, and a
cost below the previously accepted one. -/
def c1graph : List (ℕ × ℕ × ℤ) :=
  [(0, 1, 10), (1, 2, 10), (2, 3, 10), (3, 4, 10),
   (1, 5, 40), (5, 6, 10), (6, 4, 40), (6, 1, 1)]

/-- C1 (counterexample): on `c1graph` with `num_k = 3`, `yens_ksp`
returns `[[0,1,2,3,4], [0,1,5,6,4], [0,1,5,6,1,2,3,4]]` with costs
`[40, 100, 91]` — the third path visits node 1 twice (not loopless) and
the cost list is not non-decreasing. -/
theorem C1_counterexample :
    yens_ksp c1graph 3 0 4 =
        [[0, 1, 2, 3, 4], [0, 1, 5, 6, 4], [0, 1, 5, 6, 1, 2, 3, 4]] ∧
      ¬ ((∀ p ∈ yens_ksp c1graph 3 0 4, p.Nodup) ∧
        List.Chain' (· ≤ ·) ((yens_ksp c1graph 3 0 4).map (pathCost c1graph))) := by
  constructor
  · decide
  · decide

/-- C2 (counterexample): with `num_k = 0` on a one-edge graph with an
existing path, `yens_ksp` still returns the initial Dijkstra path —
one path, which is more than `num_k`. -/
theorem C2_counterexample :
    yens_ksp ([(0, 1, 1)] : List (ℕ × ℕ × ℤ)) 0 0 1 = [[0, 1]] ∧
      ¬ ((yens_ksp ([(0, 1, 1)] : List (ℕ × ℕ × ℤ)) 0 0 1).length ≤ 0) := by
  constructor
  · decide
  · decide

/-- There is an edge from `u` to `v` in the edge list. -/
def edgeIn {W : Type} (es : List (ℕ × ℕ × W)) (u v : ℕ) : Prop :=
  ∃ w, (u, v, w) ∈ es

/-- `p` is a (not necessarily loop-free) edge path from `s` to `t`. -/
def IsWalk {W : Type} (es : List (ℕ × ℕ × W)) (s t : ℕ) (p : List ℕ) : Prop :=
  p.head? = some s ∧ p.getLast? = some t ∧ List.Chain' (edgeIn es) p

lemma successors_edge {W : Type} {es : List (ℕ × ℕ × W)} {u v : ℕ}
    (h : v ∈ successors es u) : edgeIn es u v := by
  rcases List.mem_map.mp h with ⟨e, he, rfl⟩
  rcases List.mem_filter.mp he with ⟨he1, he2⟩
  rw [decide_eq_true_iff] at he2
  refine ⟨e.2.2, ?_⟩
  rw [← he2]
  exact he1

lemma simplePathsFrom_spec {W : Type} (es : List (ℕ × ℕ × W)) (t : ℕ) :
    ∀ (fuel u : ℕ) (visited : List ℕ) (p : List ℕ),
      p ∈ simplePathsFrom es t fuel u visited →
      p.head? = some u ∧ p.getLast? = some t ∧ List.Chain' (edgeIn es) p := by
  intro fuel
  induction fuel with
  | zero =>
    intro u visited p hp
    by_cases h : u = t
    · simp only [simplePathsFrom, if_pos h, List.mem_singleton] at hp
      subst hp
      exact ⟨rfl, by simp [h], List.chain'_singleton u⟩
    · simp [simplePathsFrom, h] at hp
  | succ n ih =>
    intro u visited p hp
    rw [simplePathsFrom] at hp
    rcases List.mem_append.mp hp with h1 | h2
    · by_cases h : u = t
      · rw [if_pos h] at h1
        rcases List.mem_singleton.mp h1 with rfl
        exact ⟨rfl, by simp [h], List.chain'_singleton u⟩
      · rw [if_neg h] at h1; cases h1
    · rcases List.mem_flatMap.mp h2 with ⟨v, hv, hp2⟩
      rcases List.mem_map.mp hp2 with ⟨p', hp', rfl⟩
      obtain ⟨hh, hl, hc⟩ := ih v (u :: visited) p' hp'
      have hedge : edgeIn es u v :=
        successors_edge (List.mem_filter.mp hv).1
      refine ⟨rfl, ?_, ?_⟩
      · cases p' with
        | nil => cases hh
        | cons x xs => rw [List.getLast?_cons_cons]; exact hl
      · rw [List.chain'_cons']
        exact ⟨fun y hy => by rw [hh] at hy; cases hy; exact hedge, hc⟩

/-- The folded minimum-selection of `dijkstraModel`: the result is a
member achieving the minimum cost. -/
lemma foldl_min_spec {W : Type} [LinearOrderedAddCommMonoid W]
    (es : List (ℕ × ℕ × W)) :
    ∀ (l : List (List ℕ)) (acc : Option (List ℕ)) (p : List ℕ),
      l.foldl
        (fun best q =>
          match best with
          | none => some q
          | some r => if pathCost es q < pathCost es r then some q else some r)
        acc = some p →
      (p ∈ l ∨ acc = some p) ∧ (∀ q ∈ l, pathCost es p ≤ pathCost es q) ∧
        (∀ q, acc = some q → pathCost es p ≤ pathCost es q) := by
  intro l
  induction l with
  | nil =>
    intro acc p h
    simp only [List.foldl_nil] at h
    exact ⟨Or.inr h, by simp, fun q hq => by rw [h] at hq; cases hq; exact le_refl _⟩
  | cons x l ih =>
    intro acc p h
    rw [List.foldl_cons] at h
    cases acc with
    | none =>
      dsimp only at h
      obtain ⟨hmem, hbound, haccb⟩ := ih (some x) p h
      have hpx : pathCost es p ≤ pathCost es x := haccb x rfl
      refine ⟨?_, ?_, ?_⟩
      · rcases hmem with h' | h'
        · exact Or.inl (List.mem_cons_of_mem x h')
        · exact Or.inl (by rw [← Option.some.inj h']; exact List.mem_cons_self x l)
      · intro q hq
        rcases List.mem_cons.mp hq with rfl | hq'
        · exact hpx
        · exact hbound q hq'
      · intro q hq; cases hq
    | some r =>
      dsimp only at h
      by_cases hlt : pathCost es x < pathCost es r
      · rw [if_pos hlt] at h
        obtain ⟨hmem, hbound, haccb⟩ := ih (some x) p h
        have hpx : pathCost es p ≤ pathCost es x := haccb x rfl
        refine ⟨?_, ?_, ?_⟩
        · rcases hmem with h' | h'
          · exact Or.inl (List.mem_cons_of_mem x h')
          · exact Or.inl
              (by rw [← Option.some.inj h']; exact List.mem_cons_self x l)
        · intro q hq
          rcases List.mem_cons.mp hq with rfl | hq'
          · exact hpx
          · exact hbound q hq'
        · intro q hq
          obtain rfl := Option.some.inj hq
          exact le_trans hpx hlt.le
      · rw [if_neg hlt] at h
        obtain ⟨hmem, hbound, haccb⟩ := ih (some r) p h
        have hpr : pathCost es p ≤ pathCost es r := haccb r rfl
        refine ⟨?_, ?_, ?_⟩
        · rcases hmem with h' | h'
          · exact Or.inl (List.mem_cons_of_mem x h')
          · exact Or.inr h'
        · intro q hq
          rcases List.mem_cons.mp hq with rfl | hq'
          · exact le_trans hpr (le_of_not_lt hlt)
          · exact hbound q hq'
        · intro q hq
          obtain rfl := Option.some.inj hq
          exact hpr

/-- Specification of the Dijkstra model: a returned path is a simple
path of minimum cost. -/
lemma dijkstraModel_spec {W : Type} [LinearOrderedAddCommMonoid W]
    {es : List (ℕ × ℕ × W)} {s t : ℕ} {p : List ℕ}
    (h : dijkstraModel es s t = some p) :
    p ∈ allSimplePaths es s t ∧
      ∀ q ∈ allSimplePaths es s t, pathCost es p ≤ pathCost es q := by
  rw [dijkstraModel] at h
  by_cases hst : s = t
  · rw [if_pos hst] at h; cases h
  · rw [if_neg hst] at h
    obtain ⟨hmem, hbound, -⟩ := foldl_min_spec es (allSimplePaths es s t) none p h
    rcases hmem with h' | h'
    · exact ⟨h', hbound⟩
    · cases h'

/-- `remove_edge` removes exactly the edge `get_edge_data` found. -/
lemma removeEdge_perm {W : Type} :
    ∀ {es : List (ℕ × ℕ × W)} {u v : ℕ} {w : W},
      getEdgeData es u v = some w → es.Perm ((u, v, w) :: removeEdge es u v) := by
  intro es
  induction es with
  | nil => intro u v w h; cases h
  | cons e rest ih =>
    intro u v w h
    by_cases hm : e.1 = u ∧ e.2.1 = v
    · have he : getEdgeData (e :: rest) u v = some e.2.2 := by
        simp [getEdgeData, List.find?_cons, hm]
      rw [he] at h
      obtain rfl := Option.some.inj h
      have : (u, v, e.2.2) = e := by
        obtain ⟨h1, h2⟩ := hm
        rw [← h1, ← h2]
      rw [removeEdge, if_pos hm, this]
    · have he : getEdgeData (e :: rest) u v = getEdgeData rest u v := by
        simp [getEdgeData, List.find?_cons, hm]
      rw [he] at h
      rw [removeEdge, if_neg hm]
      exact ((ih h).cons e).trans
        (List.Perm.swap (u, v, w) e (removeEdge rest u v))

/-- Pruning and restoring is a permutation: the removed edges are
exactly the difference. -/
lemma removeAlongPaths_perm {W : Type} (i : ℕ) (root : List ℕ) :
    ∀ (paths : List (List ℕ)) (es : List (ℕ × ℕ × W)),
      es.Perm ((removeAlongPaths i root paths es).1 ++
        (removeAlongPaths i root paths es).2) := by
  intro paths
  induction paths with
  | nil => intro es; simp [removeAlongPaths]
  | cons p rest ih =>
    intro es
    rw [removeAlongPaths]
    by_cases hcnd : i + 1 < p.length ∧ root = p.take i
    · simp only [if_pos hcnd]
      cases hg : getEdgeData es (p.getD i 0) (p.getD (i + 1) 0) with
      | none => simp only [hg]; exact ih es
      | some w =>
        simp only [hg]
        exact ((removeEdge_perm hg).trans ((ih _).cons _)).trans
          List.perm_middle.symm
    · simp only [if_neg hcnd]
      exact ih es

/-- A chain of edges of a membership-smaller edge list is a chain of the
larger one. -/
lemma chain_edgeIn_mono {W : Type} {es es' : List (ℕ × ℕ × W)}
    (hsub : ∀ e, e ∈ es' → e ∈ es) {p : List ℕ}
    (h : List.Chain' (edgeIn es') p) : List.Chain' (edgeIn es) p := by
  refine h.imp ?_
  intro a b hr
  rcases hr with ⟨w, hw⟩
  exact ⟨w, hsub _ hw⟩

/-- Gluing the root prefix of an accepted walk with a spur walk starting
at the deviation node yields a walk. -/
lemma walk_root_spur {W : Type} {es : List (ℕ × ℕ × W)} {s t : ℕ}
    {prev sp : List ℕ} {i : ℕ} (hprev : IsWalk es s t prev)
    (hi : i + 1 < prev.length) (hh : sp.head? = some (prev.getD i 0))
    (hl : sp.getLast? = some t) (hc : List.Chain' (edgeIn es) sp) :
    IsWalk es s t (prev.take i ++ sp) := by
  obtain ⟨hph, hpl, hpc⟩ := hprev
  have hsp_ne : sp ≠ [] := by
    intro h; rw [h] at hh; cases hh
  refine ⟨?_, ?_, ?_⟩
  · cases i with
    | zero =>
      simp only [List.take_zero, List.nil_append]
      rw [hh]
      cases prev with
      | nil => cases hph
      | cons a l => simpa using hph
    | succ j =>
      cases prev with
      | nil => cases hph
      | cons a l =>
        rw [List.take_succ_cons, List.cons_append, List.head?_cons]
        simpa using hph
  · rw [List.getLast?_append_of_ne_nil _ hsp_ne]
    exact hl
  · rw [List.chain'_append]
    refine ⟨hpc.take i, hc, ?_⟩
    intro x hx y hy
    cases i with
    | zero => simp at hx
    | succ j =>
      have hjlen : j + 1 < prev.length := by omega
      have htake_ne : prev.take (j + 1) ≠ [] := by
        have hlen1 : (prev.take (j + 1)).length = j + 1 := by
          rw [List.length_take]
          omega
        intro h
        rw [h] at hlen1
        cases hlen1
      have hlast : prev.take (j + 1) ≠ [] →
          (prev.take (j + 1)).getLast? =
            prev[(prev.take (j + 1)).length - 1]? := by
        intro _
        rw [List.getLast?_eq_getElem?, List.getElem?_take]
        have hlen : (prev.take (j + 1)).length = j + 1 := by
          rw [List.length_take]
          omega
        rw [hlen]
        simp [show j < j + 1 by omega]
      have hxval : x = prev.getD j 0 := by
        have h1 := hlast htake_ne
        rw [h1] at hx
        have hlen : (prev.take (j + 1)).length = j + 1 := by
          rw [List.length_take]; omega
        rw [hlen] at hx
        have : prev[j]? = some x := hx
        rw [List.getD_eq_getElem?_getD, this]
        rfl
      have hyval : y = prev.getD (j + 1) 0 := by
        rw [hh] at hy
        cases hy
        rfl
      subst hxval
      subst hyval
      have := List.chain'_iff_get.mp hpc j (by omega)
      have hxg : prev.getD j 0 = prev.get ⟨j, by omega⟩ := by
        rw [List.getD_eq_getElem?_getD, List.getElem?_eq_getElem (by omega)]
        rfl
      have hyg : prev.getD (j + 1) 0 = prev.get ⟨j + 1, by omega⟩ := by
        rw [List.getD_eq_getElem?_getD, List.getElem?_eq_getElem (by omega)]
        rfl
      rw [hxg, hyg]
      exact this

/-- The loop invariant of `yens_ksp`: the working graph stays a
permutation of the input graph, and every accepted path and every queued
candidate is a walk from the precursors node to the target node. -/
def Inv {W : Type} (g0 : List (ℕ × ℕ × W)) (s t : ℕ) (st : YState W) : Prop :=
  st.g.Perm g0 ∧ (∀ p ∈ st.a, IsWalk g0 s t p) ∧
    ∀ x ∈ st.b, IsWalk g0 s t x.2

/-- Field-level description of one spur iteration. -/
lemma spurStep_fields {W : Type} [LinearOrderedAddCommMonoid W]
    (t : ℕ) (prev : List ℕ) (st : YState W) (i : ℕ) :
    (spurStep t prev st i).a = st.a ∧
      (spurStep t prev st i).aCosts = st.aCosts ∧
      (spurStep t prev st i).g =
        (removeAlongPaths i (prev.take i) st.a st.g).1 ++
          (removeAlongPaths i (prev.take i) st.a st.g).2 ∧
      ((spurStep t prev st i).b = st.b ∨
        ∃ sp,
          dijkstraModel (removeAlongPaths i (prev.take i) st.a st.g).1
              (prev.getD i 0) t = some sp ∧
          (spurStep t prev st i).b =
            st.b ++
              [(pathCost
                  ((removeAlongPaths i (prev.take i) st.a st.g).1 ++
                    (removeAlongPaths i (prev.take i) st.a st.g).2)
                  (prev.take i ++ sp),
                prev.take i ++ sp)]) := by
  simp only [spurStep]
  cases hdj : dijkstraModel (removeAlongPaths i (prev.take i) st.a st.g).1
      (prev.getD i 0) t with
  | none => exact ⟨rfl, rfl, rfl, Or.inl rfl⟩
  | some sp => exact ⟨rfl, rfl, rfl, Or.inr ⟨sp, rfl, rfl⟩⟩

/-- One spur iteration preserves the loop invariant. -/
lemma spurStep_inv {W : Type} [LinearOrderedAddCommMonoid W]
    {g0 : List (ℕ × ℕ × W)} {s t : ℕ} {st : YState W} {prev : List ℕ}
    {i : ℕ} (hInv : Inv g0 s t st) (hprev : prev ∈ st.a)
    (hi : i + 1 < prev.length) : Inv g0 s t (spurStep t prev st i) := by
  obtain ⟨hg, ha, hb⟩ := hInv
  obtain ⟨hsa, -, hsg, hsb⟩ := spurStep_fields t prev st i
  have hperm : st.g.Perm
      ((removeAlongPaths i (prev.take i) st.a st.g).1 ++
        (removeAlongPaths i (prev.take i) st.a st.g).2) :=
    removeAlongPaths_perm i (prev.take i) st.a st.g
  refine ⟨?_, ?_, ?_⟩
  · rw [hsg]
    exact hperm.symm.trans hg
  · rw [hsa]
    exact ha
  · rcases hsb with hbe | ⟨sp, hdj, hbe⟩
    · rw [hbe]
      exact hb
    · rw [hbe]
      intro x hx
      rcases List.mem_append.mp hx with hx | hx
      · exact hb x hx
      · rcases List.mem_singleton.mp hx with rfl
        obtain ⟨hmem, -⟩ := dijkstraModel_spec hdj
        obtain ⟨hh, hl, hc⟩ := simplePathsFrom_spec _ t _ _ _ _ hmem
        have hsub : ∀ e, e ∈ (removeAlongPaths i (prev.take i) st.a st.g).1 →
            e ∈ g0 := by
          intro e he
          exact hg.mem_iff.mp (hperm.mem_iff.mpr (List.mem_append_left _ he))
        exact walk_root_spur (ha prev hprev) hi hh hl
          (chain_edgeIn_mono hsub hc)

/-- The spur fold leaves the accepted paths untouched. -/
lemma foldl_spurStep_a {W : Type} [LinearOrderedAddCommMonoid W]
    (t : ℕ) (prev : List ℕ) :
    ∀ (l : List ℕ) (st : YState W),
      (l.foldl (spurStep t prev) st).a = st.a := by
  intro l
  induction l with
  | nil => intro st; rfl
  | cons i l ih =>
    intro st
    rw [List.foldl_cons, ih, (spurStep_fields t prev st i).1]

/-- The spur fold preserves the loop invariant. -/
lemma foldl_spurStep_inv {W : Type} [LinearOrderedAddCommMonoid W]
    {g0 : List (ℕ × ℕ × W)} {s t : ℕ} {prev : List ℕ} :
    ∀ (l : List ℕ) (st : YState W), (∀ i ∈ l, i + 1 < prev.length) →
      prev ∈ st.a → Inv g0 s t st →
      Inv g0 s t (l.foldl (spurStep t prev) st) := by
  intro l
  induction l with
  | nil => intro st _ _ h; exact h
  | cons i l ih =>
    intro st hr hprev hInv
    rw [List.foldl_cons]
    refine ih _ (fun j hj => hr j (List.mem_cons_of_mem i hj)) ?_ ?_
    · rw [(spurStep_fields t prev st i).1]
      exact hprev
    · exact spurStep_inv hInv hprev (hr i (List.mem_cons_self i l))

/-- The popped entry comes from the queue and the remainder is a
sub-collection of it. -/
lemma pqPopMin_mem {W : Type} [LinearOrder W] :
    ∀ (b : List (W × List ℕ)) (x : W × List ℕ) (rest : List (W × List ℕ)),
      pqPopMin b = some (x, rest) → x ∈ b ∧ ∀ y ∈ rest, y ∈ b := by
  intro b
  induction b with
  | nil => intro x rest h; cases h
  | cons z b ih =>
    intro x rest h
    rw [pqPopMin] at h
    cases hm : pqPopMin b with
    | none =>
      rw [hm] at h
      dsimp only at h
      obtain ⟨h1, h2⟩ := Prod.mk.inj (Option.some.inj h)
      subst h1
      subst h2
      exact ⟨List.mem_cons_self z b, by simp⟩
    | some mr =>
      obtain ⟨m, rest'⟩ := mr
      obtain ⟨hmb, hrb⟩ := ih m rest' hm
      rw [hm] at h
      dsimp only at h
      by_cases hl : pqLess m z = true
      · rw [if_pos hl] at h
        obtain ⟨h1, h2⟩ := Prod.mk.inj (Option.some.inj h)
        subst h1
        subst h2
        refine ⟨List.mem_cons_of_mem z hmb, ?_⟩
        intro y hy
        rcases List.mem_cons.mp hy with rfl | hy'
        · exact List.mem_cons_self y b
        · exact List.mem_cons_of_mem z (hrb y hy')
      · rw [if_neg hl] at h
        obtain ⟨h1, h2⟩ := Prod.mk.inj (Option.some.inj h)
        subst h1
        subst h2
        exact ⟨List.mem_cons_self z b, fun y hy => List.mem_cons_of_mem z hy⟩

/-- The pop loop: queue entries stay queue entries, accepted paths gain
at most one new element drawn from the queue, never duplicating an
accepted path. -/
lemma popPhaseFuel_spec {W : Type} [LinearOrder W] {P : List ℕ → Prop} :
    ∀ (fuel : ℕ) (b : List (W × List ℕ)) (a : List (List ℕ)) (c : List W),
      (∀ x ∈ b, P x.2) → (∀ p ∈ a, P p) → a.Nodup →
      (∀ x ∈ (popPhaseFuel fuel b a c).1, P x.2) ∧
        (∀ p ∈ (popPhaseFuel fuel b a c).2.1, P p) ∧
        (popPhaseFuel fuel b a c).2.1.Nodup ∧
        ∃ suf, (popPhaseFuel fuel b a c).2.1 = a ++ suf ∧ suf.length ≤ 1 := by
  intro fuel
  induction fuel with
  | zero =>
    intro b a c hb ha hn
    exact ⟨hb, ha, hn, [], by simp [popPhaseFuel], by simp⟩
  | succ n ih =>
    intro b a c hb ha hn
    rw [popPhaseFuel]
    cases hp : pqPopMin b with
    | none => exact ⟨hb, ha, hn, [], by simp, by simp⟩
    | some xr =>
      obtain ⟨x, rest⟩ := xr
      obtain ⟨hxb, hrb⟩ := pqPopMin_mem b x rest hp
      dsimp only
      by_cases hxa : x.2 ∈ a
      · rw [if_pos hxa]
        exact ih rest a c (fun y hy => hb y (hrb y hy)) ha hn
      · rw [if_neg hxa]
        refine ⟨fun y hy => hb y (hrb y hy), ?_, ?_, [x.2], rfl, by simp⟩
        · intro p hp'
          rcases List.mem_append.mp hp' with h | h
          · exact ha p h
          · rcases List.mem_singleton.mp h with rfl
            exact hb x hxb
        · refine List.nodup_append.mpr ⟨hn, List.nodup_singleton _, ?_⟩
          intro p hpa hps
          rw [List.mem_singleton] at hps
          subst hps
          exact hxa hpa

/-- The main loop preserves the invariant, keeps the accepted list
duplicate-free, and appends at most one path per remaining iteration. -/
lemma yensLoop_inv {W : Type} [LinearOrderedAddCommMonoid W]
    {g0 : List (ℕ × ℕ × W)} {s t : ℕ} :
    ∀ (r k : ℕ) (st : YState W), Inv g0 s t st → st.a.Nodup →
      Inv g0 s t (yensLoop t k r st) ∧ (yensLoop t k r st).a.Nodup ∧
        ∃ suf, (yensLoop t k r st).a = st.a ++ suf ∧ suf.length ≤ r := by
  intro r
  induction r with
  | zero =>
    intro k st h hn
    exact ⟨h, hn, [], by simp [yensLoop], by simp⟩
  | succ n ih =>
    intro k st hInv hnd
    rw [yensLoop]
    cases hk : st.a[k - 1]? with
    | none => exact ⟨hInv, hnd, [], by simp, by simp⟩
    | some prev =>
      have hprev : prev ∈ st.a := List.getElem?_mem hk
      have hrange : ∀ i ∈ List.range (prev.length - 1), i + 1 < prev.length := by
        intro i hi
        have := List.mem_range.mp hi
        omega
      dsimp only
      obtain ⟨hg1, ha1, hb1⟩ :=
        foldl_spurStep_inv (List.range (prev.length - 1)) st hrange hprev hInv
      have haeq : ((List.range (prev.length - 1)).foldl (spurStep t prev) st).a
          = st.a := foldl_spurStep_a t prev _ st
      obtain ⟨hbP, haP, hndP, suf1, hsuf1, hlen1⟩ :=
        popPhaseFuel_spec (P := IsWalk g0 s t)
          ((List.range (prev.length - 1)).foldl (spurStep t prev) st).b.length
          ((List.range (prev.length - 1)).foldl (spurStep t prev) st).b
          ((List.range (prev.length - 1)).foldl (spurStep t prev) st).a
          ((List.range (prev.length - 1)).foldl (spurStep t prev) st).aCosts
          hb1 ha1 (by rw [haeq]; exact hnd)
      obtain ⟨hI2, hnd2, suf2, hsuf2, hlen2⟩ :=
        ih (k + 1)
          ⟨((List.range (prev.length - 1)).foldl (spurStep t prev) st).g,
            (popPhase
              ((List.range (prev.length - 1)).foldl (spurStep t prev) st).b
              ((List.range (prev.length - 1)).foldl (spurStep t prev) st).a
              ((List.range (prev.length - 1)).foldl (spurStep t prev)
                st).aCosts).2.1,
            (popPhase
              ((List.range (prev.length - 1)).foldl (spurStep t prev) st).b
              ((List.range (prev.length - 1)).foldl (spurStep t prev) st).a
              ((List.range (prev.length - 1)).foldl (spurStep t prev)
                st).aCosts).2.2,
            (popPhase
              ((List.range (prev.length - 1)).foldl (spurStep t prev) st).b
              ((List.range (prev.length - 1)).foldl (spurStep t prev) st).a
              ((List.range (prev.length - 1)).foldl (spurStep t prev)
                st).aCosts).1⟩
          ⟨hg1, haP, hbP⟩ hndP
      refine ⟨hI2, hnd2, suf1 ++ suf2, ?_, by rw [List.length_append]; omega⟩
      rw [hsuf2]
      dsimp only [popPhase]
      rw [hsuf1, haeq, List.append_assoc]

/-- C1 (amended): every node path returned by `yens_ksp` is a path in the
graph (consecutive nodes joined by edges) from the precursors node to the
target node, and the first returned path has minimum total cost among all
loopless paths.  (The returned paths are NOT guaranteed loopless, and the
list is NOT guaranteed sorted by cost: spur computations never remove the
visited root nodes, so spurs can re-enter the root and reuse edges hidden
from earlier spur searches — see the counterexample.) -/
theorem C1_yens_walks_first_min {W : Type} [LinearOrderedAddCommMonoid W]
    (g0 : List (ℕ × ℕ × W)) (num_k s t : ℕ) :
    (∀ p ∈ yens_ksp g0 num_k s t,
        p.head? = some s ∧ p.getLast? = some t ∧
          List.Chain' (edgeIn g0) p) ∧
      ∀ p0, (yens_ksp g0 num_k s t).head? = some p0 →
        ∀ q ∈ allSimplePaths g0 s t, pathCost g0 p0 ≤ pathCost g0 q := by
  rw [yens_ksp]
  cases hdj : dijkstraModel g0 s t with
  | none =>
    constructor
    · intro p hp
      simp at hp
    · intro p0 hp0
      simp at hp0
  | some p =>
    dsimp only
    obtain ⟨hmem, hmin⟩ := dijkstraModel_spec hdj
    obtain ⟨hh, hl, hc⟩ := simplePathsFrom_spec g0 t _ _ _ _ hmem
    have hInv0 : Inv g0 s t ⟨g0, [p], [pathCost g0 p], []⟩ := by
      refine ⟨List.Perm.refl g0, ?_, by simp⟩
      intro q hq
      rcases List.mem_singleton.mp hq with rfl
      exact ⟨hh, hl, hc⟩
    obtain ⟨⟨-, hwalks, -⟩, -, suf, hsuf, -⟩ :=
      yensLoop_inv (num_k - 1) 1 ⟨g0, [p], [pathCost g0 p], []⟩ hInv0
        (by simp)
    constructor
    · exact fun q hq => hwalks q hq
    · intro p0 hp0
      rw [hsuf, List.singleton_append, List.head?_cons] at hp0
      obtain rfl := (Option.some.inj hp0).symm
      exact hmin

/-- Witness for `C1_yens_walks_first_min` on a one-edge graph, with the
inner first-path hypothesis discharged at `p0 = [0, 1]`. -/
theorem C1_yens_walks_first_min_witness :
    (∀ p ∈ yens_ksp ([(0, 1, 1)] : List (ℕ × ℕ × ℤ)) 1 0 1,
        p.head? = some 0 ∧ p.getLast? = some 1 ∧
          List.Chain' (edgeIn [(0, 1, 1)]) p) ∧
      (yens_ksp ([(0, 1, 1)] : List (ℕ × ℕ × ℤ)) 1 0 1).head? =
          some [0, 1] ∧
      ∀ q ∈ allSimplePaths ([(0, 1, 1)] : List (ℕ × ℕ × ℤ)) 0 1,
        pathCost [(0, 1, 1)] [0, 1] ≤ pathCost [(0, 1, 1)] q :=
  ⟨(C1_yens_walks_first_min [(0, 1, 1)] 1 0 1).1, by decide,
    (C1_yens_walks_first_min [(0, 1, 1)] 1 0 1).2 [0, 1] (by decide)⟩

/-- C2 (amended): for `num_k ≥ 1`, `yens_ksp` returns at most `num_k`
paths, no two of which are the identical node sequence; when fewer are
found the shorter list is returned (the function is total — no error).
(For `num_k = 0` the initial Dijkstra path is still returned, exceeding
`num_k` — see the counterexample.) -/
theorem C2_yens_at_most_k_and_distinct {W : Type}
    [LinearOrderedAddCommMonoid W] (g0 : List (ℕ × ℕ × W))
    (num_k s t : ℕ) (hk : 1 ≤ num_k) :
    (yens_ksp g0 num_k s t).length ≤ num_k ∧
      (yens_ksp g0 num_k s t).Nodup := by
  rw [yens_ksp]
  cases hdj : dijkstraModel g0 s t with
  | none =>
    constructor
    · simp
    · simp
  | some p =>
    dsimp only
    obtain ⟨hmem, -⟩ := dijkstraModel_spec hdj
    obtain ⟨hh, hl, hc⟩ := simplePathsFrom_spec g0 t _ _ _ _ hmem
    have hInv0 : Inv g0 s t ⟨g0, [p], [pathCost g0 p], []⟩ := by
      refine ⟨List.Perm.refl g0, ?_, by simp⟩
      intro q hq
      rcases List.mem_singleton.mp hq with rfl
      exact ⟨hh, hl, hc⟩
    obtain ⟨-, hnd, suf, hsuf, hlen⟩ :=
      yensLoop_inv (num_k - 1) 1 ⟨g0, [p], [pathCost g0 p], []⟩ hInv0
        (by simp)
    constructor
    · rw [hsuf, List.length_append, List.length_singleton]
      omega
    · exact hnd

/-- Witness for `C2_yens_at_most_k_and_distinct` on a one-edge graph
with `num_k = 2`. -/
theorem C2_yens_at_most_k_and_distinct_witness :
    1 ≤ 2 ∧
      ((yens_ksp ([(0, 1, 1)] : List (ℕ × ℕ × ℤ)) 2 0 1).length ≤ 2 ∧
        (yens_ksp ([(0, 1, 1)] : List (ℕ × ℕ × ℤ)) 2 0 1).Nodup) :=
  ⟨by decide, C2_yens_at_most_k_and_distinct [(0, 1, 1)] 2 0 1 (by decide)⟩

end RxnNetwork
